import Mathlib

/-!
# Verification of the mind-model concept engine

Shallow embedding of the core of the `mind-model` repository
(`src/mind_model/concepts/concept.py`, `feature_ensemble.py`,
`assemblies/cell_ensemble_rt.py`, `manipulations/manipulations.py`,
`utils/relations_utils.py`) together with proofs of the specified
properties.

Modelling conventions:
* Python `float` is modelled by `ℚ` (exact arithmetic; all the claims under
  study involve only comparisons, `+`, `*`, `/`, `abs`, `min`, `max`).
* Python `dict` is modelled by an insertion-ordered association list
  (`PyDict`): assignment to an existing key updates the entry in place,
  assignment to a new key appends; lookup returns the first (unique) match.
* `uuid.UUID` is modelled by an opaque `Uuid := Nat`; `uuid4()` calls are
  modelled by threading an explicit fresh-id counter.  The Python
  `str(uuid)` / `uuid.UUID(str)` round trip is a bijection on UUIDs and is
  modelled as the identity.
* Python `set` objects are modelled by duplicate-free lists built with
  `setInsert` (membership is the only observable used by the claims).
* Human-readable `notes` strings returned by the manipulation operations are
  presentation-only output and are not modelled; no claim mentions them.
-/

set_option autoImplicit false

namespace MindModel

/-- UUIDs are opaque identifiers; modelled by naturals. -/
abbrev Uuid := Nat

/-! ## Python dictionaries as insertion-ordered association lists -/

/-- Lookup in a Python dict: first (unique) entry with the given key. -/
def dget? {α β : Type} [DecidableEq α] (d : List (α × β)) (k : α) : Option β :=
  match d with
  | [] => none
  | (k₁, v₁) :: rest => if k₁ = k then some v₁ else dget? rest k

/-- Assignment `d[k] = v` in a Python dict: update in place if the key is
present (keeping its position), else append a new entry. -/
def dset {α β : Type} [DecidableEq α] (d : List (α × β)) (k : α) (v : β) :
    List (α × β) :=
  match d with
  | [] => [(k, v)]
  | (k₁, v₁) :: rest => if k₁ = k then (k, v) :: rest else (k₁, v₁) :: dset rest k v

/-- The key list of a dict. -/
def dkeys {α β : Type} (d : List (α × β)) : List α := d.map Prod.fst

@[simp] theorem dkeys_nil {α β : Type} : dkeys ([] : List (α × β)) = [] := rfl

@[simp] theorem dkeys_cons {α β : Type} (p : α × β) (rest : List (α × β)) :
    dkeys (p :: rest) = p.1 :: dkeys rest := rfl

@[simp] theorem dget?_nil {α β : Type} [DecidableEq α] (k : α) :
    dget? ([] : List (α × β)) k = none := rfl

@[simp] theorem dget?_cons {α β : Type} [DecidableEq α]
    (k₁ : α) (v₁ : β) (rest : List (α × β)) (k : α) :
    dget? ((k₁, v₁) :: rest) k = if k₁ = k then some v₁ else dget? rest k := rfl

theorem dget?_dset_self {α β : Type} [DecidableEq α]
    (d : List (α × β)) (k : α) (v : β) : dget? (dset d k v) k = some v := by
  induction d with
  | nil => simp [dset, dget?]
  | cons p rest ih =>
    obtain ⟨k₁, v₁⟩ := p
    by_cases h : k₁ = k
    · simp [dset, h, dget?]
    · simp [dset, h, dget?, ih]

theorem dget?_dset_ne {α β : Type} [DecidableEq α]
    (d : List (α × β)) (k k₂ : α) (v : β) (hne : k ≠ k₂) :
    dget? (dset d k v) k₂ = dget? d k₂ := by
  induction d with
  | nil => simp [dset, dget?, hne]
  | cons p rest ih =>
    obtain ⟨k₁, v₁⟩ := p
    by_cases h : k₁ = k
    · subst h
      simp [dset, dget?, hne]
    · simp [dset, h, dget?, ih]

theorem dget?_dset {α β : Type} [DecidableEq α]
    (d : List (α × β)) (k k₂ : α) (v : β) :
    dget? (dset d k v) k₂ = if k = k₂ then some v else dget? d k₂ := by
  by_cases h : k = k₂
  · subst h; simp [dget?_dset_self]
  · simp [h, dget?_dset_ne d k k₂ v h]

theorem dkeys_dset {α β : Type} [DecidableEq α]
    (d : List (α × β)) (k : α) (v : β) :
    dkeys (dset d k v) = if k ∈ dkeys d then dkeys d else dkeys d ++ [k] := by
  induction d with
  | nil => simp [dset]
  | cons p rest ih =>
    obtain ⟨k₁, v₁⟩ := p
    by_cases h : k₁ = k
    · subst h; simp [dset]
    · have hne : ¬k = k₁ := fun hh => h hh.symm
      simp only [dset, h, if_false, dkeys_cons]
      rw [ih]
      by_cases hm : k ∈ dkeys rest
      · simp [hm, hne]
      · simp [hm, hne]

theorem mem_dkeys_dset {α β : Type} [DecidableEq α]
    (d : List (α × β)) (k k₂ : α) (v : β) (h : k₂ ∈ dkeys d) :
    k₂ ∈ dkeys (dset d k v) := by
  rw [dkeys_dset]
  by_cases hm : k ∈ dkeys d <;> simp [hm, h]

theorem nodup_dkeys_dset {α β : Type} [DecidableEq α]
    (d : List (α × β)) (k : α) (v : β) (h : (dkeys d).Nodup) :
    (dkeys (dset d k v)).Nodup := by
  rw [dkeys_dset]
  by_cases hm : k ∈ dkeys d
  · simpa [hm] using h
  · simp only [hm, if_false]
    exact List.Nodup.append h (List.nodup_singleton k)
      (by simpa [List.disjoint_singleton] using hm)

theorem dget?_eq_none_of_not_mem {α β : Type} [DecidableEq α]
    (d : List (α × β)) (k : α) (h : k ∉ dkeys d) : dget? d k = none := by
  induction d with
  | nil => rfl
  | cons p rest ih =>
    obtain ⟨k₁, v₁⟩ := p
    simp only [dkeys_cons, List.mem_cons] at h
    push_neg at h
    have hne : ¬k₁ = k := fun hh => h.1 hh.symm
    simp [dget?, hne, ih h.2]

theorem dget?_isSome_dset {α β : Type} [DecidableEq α]
    (d : List (α × β)) (k k₂ : α) (v : β)
    (h : (dget? d k₂).isSome) : (dget? (dset d k v) k₂).isSome := by
  rw [dget?_dset]
  by_cases he : k = k₂ <;> simp [he, h]

/-- Python `set.add` modelled on duplicate-free lists. -/
def setInsert {α : Type} [DecidableEq α] (l : List α) (k : α) : List α :=
  if k ∈ l then l else l ++ [k]

theorem mem_setInsert {α : Type} [DecidableEq α] (l : List α) (k a : α) :
    a ∈ setInsert l k ↔ a ∈ l ∨ a = k := by
  unfold setInsert
  by_cases h : k ∈ l
  · simp only [h, if_true]
    constructor
    · exact Or.inl
    · rintro (ha | rfl) <;> assumption
  · simp [h, or_comm]

theorem nodup_setInsert {α : Type} [DecidableEq α] (l : List α) (k : α)
    (h : l.Nodup) : (setInsert l k).Nodup := by
  unfold setInsert
  by_cases hm : k ∈ l
  · simpa [hm]
  · simp only [hm, if_false]
    exact List.Nodup.append h (List.nodup_singleton k)
      (by simpa [List.disjoint_singleton] using hm)

/-! ## `feature_ensemble.py` -/

/-- `FeatureEnsemble` (feature_ensemble.py): a named, vectorized activation
unit with weighted links to sibling ensembles, keyed by identity. -/
structure FeatureEnsemble where
  name : String
  modality : String
  vector : List ℚ
  description : String
  activation : ℚ
  ensemble_id : Uuid
  links : List (Uuid × ℚ)
  deriving DecidableEq, Repr

/-- `FeatureEnsemble(name, modality, vector, description)` with a caller
supplied fresh id (modelling the `uuid4()` default). Runtime state defaults:
`activation = 0.0`, `links = {}`. -/
def mkFeatureEnsemble (eid : Uuid) (name modality : String) (vector : List ℚ)
    (description : String) : FeatureEnsemble :=
  { name := name, modality := modality, vector := vector,
    description := description, activation := 0, ensemble_id := eid, links := [] }

/-- `FeatureEnsemble.add_link`: additive create-or-increment. -/
def FeatureEnsemble.add_link (e : FeatureEnsemble) (target : Uuid) (w : ℚ) :
    FeatureEnsemble :=
  { e with links := dset e.links target ((dget? e.links target).getD 0 + w) }

/-- `FeatureEnsemble.decay`: `activation *= (1 - clamp(fraction, 0, 1))`. -/
def FeatureEnsemble.decayFE (e : FeatureEnsemble) (fraction : ℚ) : FeatureEnsemble :=
  { e with activation := e.activation * (1 - max 0 (min 1 fraction)) }

/-- `FeatureEnsemble.hebbian`: for every id in `coactive_ids` except self,
`links[t] = links.get(t, 0.0) + learning_rate * activation`. -/
def FeatureEnsemble.hebbianFE (e : FeatureEnsemble) (coactive_ids : List Uuid)
    (learning_rate : ℚ) : FeatureEnsemble :=
  let ls :=
    coactive_ids.foldl
      (fun ls t =>
        if t = e.ensemble_id then ls
        else dset ls t ((dget? ls t).getD 0 + learning_rate * e.activation))
      e.links
  { e with links := ls }

/-! ## `relationships.py` and `relations_utils.py` -/

/-- `RelationshipEdge` (relationships.py). -/
structure RelationshipEdge where
  relation_type : String
  target_concept_id : Uuid
  description : String
  deriving DecidableEq, Repr

/-- `(type, target_concept_id_str, description)`; the UUID component keeps
its `Uuid` form (str conversion is a bijection, modelled as identity). -/
abbrev RelTuple := String × Uuid × String

/-! ## `concept.py` -/

/-- `Concept` (concept.py). `metadata` is a free-form string map. -/
structure Concept where
  concept_id : Uuid
  name : String
  description : String
  metadata : List (String × String)
  ensembles_by_id : List (Uuid × FeatureEnsemble)
  ensembles_by_name : List (String × Uuid)
  relationships : List RelationshipEdge
  inhibition_gain : ℚ
  activation_threshold : ℚ
  deriving DecidableEq, Repr

/-- `Concept.__init__` with a caller supplied fresh id (modelling `uuid4()`).
`metadata or {"version": "3.0"}` keeps the argument unless it is empty. -/
def mkConcept (cid : Uuid) (name : String) (description : String)
    (metadata : List (String × String)) (inhibition_gain activation_threshold : ℚ) :
    Concept :=
  { concept_id := cid, name := name, description := description,
    metadata := if metadata = [] then [("version", "3.0")] else metadata,
    ensembles_by_id := [], ensembles_by_name := [], relationships := [],
    inhibition_gain := inhibition_gain,
    activation_threshold := activation_threshold }

/-- `Concept.add_ensemble`: register under both the identity map and the
name index (a name collision overwrites the name entry only). -/
def Concept.add_ensemble (c : Concept) (e : FeatureEnsemble) : Concept :=
  { c with
    ensembles_by_id := dset c.ensembles_by_id e.ensemble_id e,
    ensembles_by_name := dset c.ensembles_by_name e.name e.ensemble_id }

/-- `Concept.get_ensemble`: name → identity → ensemble, `None` on a miss at
either step. -/
def Concept.get_ensemble (c : Concept) (name : String) : Option FeatureEnsemble :=
  match dget? c.ensembles_by_name name with
  | none => none
  | some eid => dget? c.ensembles_by_id eid

/-- `Concept._lateral_inhibition`: divisive normalization; no-op when the
total positive activation is at most `1e-9`. -/
def Concept.lateral_inhibition (c : Concept) : Concept :=
  let total := (c.ensembles_by_id.map (fun p => max 0 p.2.activation)).sum
  if total ≤ 1 / 1000000000 then c
  else
    let denom := 1 + c.inhibition_gain * total
    let byid :=
      c.ensembles_by_id.map (fun p => (p.1, { p.2 with activation := p.2.activation / denom }))
    { c with ensembles_by_id := byid }

/-- `Concept.decay_all`. -/
def Concept.decay_all (c : Concept) (fraction : ℚ) : Concept :=
  let byid := c.ensembles_by_id.map (fun p => (p.1, p.2.decayFE fraction))
  { c with ensembles_by_id := byid }

/-- `Concept.learn_hebbian`: threshold-gated Hebbian reinforcement of the
links of every co-active ensemble toward the whole co-active set. -/
def Concept.learn_hebbian (c : Concept) (learning_rate : ℚ)
    (min_activation : Option ℚ) : Concept :=
  let thr := min_activation.getD c.activation_threshold
  let coactive_ids :=
    (c.ensembles_by_id.filter (fun p => decide (thr ≤ p.2.activation))).map Prod.fst
  let byid :=
    c.ensembles_by_id.map (fun p =>
      if thr ≤ p.2.activation then (p.1, p.2.hebbianFE coactive_ids learning_rate)
      else p)
  { c with ensembles_by_id := byid }

/-- `Concept.add_relationship`: append one typed edge. -/
def Concept.add_relationship (c : Concept) (relation_type : String)
    (target_concept_id : Uuid) (description : String) : Concept :=
  let rels := c.relationships ++ [⟨relation_type, target_concept_id, description⟩]
  { c with relationships := rels }

/-! ### `Concept.stimulate`

Step 1 (direct activation) scores each cue by float cosine similarity, which
involves square roots; the similarity function is therefore abstracted as a
parameter `sim` (every claim under study is independent of its values).
Step 2 (one-hop spread) and step 3 (lateral inhibition) are translated
exactly.  The Python spread applies the accumulated delta map with
`self.ensembles_by_id[t_id]`, which raises `KeyError` when a delta key is
not a present ensemble id; the embedding returns `none` there. -/

/-- Step 1: `ens.activation += gain * ens.similarity(vec)` for each cue whose
name resolves to an ensemble. -/
def Concept.directActivation (sim : FeatureEnsemble → List ℚ → ℚ) (c : Concept)
    (cues : List (String × List ℚ)) (gain : ℚ) : Concept :=
  cues.foldl
    (fun c cue =>
      match dget? c.ensembles_by_name cue.1 with
      | none => c
      | some eid =>
        match dget? c.ensembles_by_id eid with
        | none => c
        | some e =>
          let byid :=
            dset c.ensembles_by_id eid
              { e with activation := e.activation + gain * sim e cue.2 }
          { c with ensembles_by_id := byid })
    c

/-- Step 2, accumulation: `delta = {eid: 0.0 for eid in ensembles_by_id}`,
then for every source with positive activation and every link,
`delta[t_id] = delta.get(t_id, 0.0) + s.activation * w`. -/
def Concept.buildDelta (es : List (Uuid × FeatureEnsemble)) : List (Uuid × ℚ) :=
  es.foldl
    (fun d p =>
      if p.2.activation ≤ 0 then d
      else
        p.2.links.foldl
          (fun d q => dset d q.1 ((dget? d q.1).getD 0 + p.2.activation * q.2))
          d)
    (es.map (fun p => (p.1, (0 : ℚ))))

/-- Step 2, application: `self.ensembles_by_id[t_id].activation += d` for each
delta entry; a key absent from the identity map raises `KeyError` (`none`). -/
def Concept.applyDelta (byid : List (Uuid × FeatureEnsemble)) :
    List (Uuid × ℚ) → Option (List (Uuid × FeatureEnsemble))
  | [] => some byid
  | (t, dq) :: rest =>
    match dget? byid t with
    | none => none
    | some e =>
      Concept.applyDelta (dset byid t { e with activation := e.activation + dq }) rest

/-- The one-hop spread stage of `Concept.stimulate` (step 2). -/
def Concept.spreadStep (c : Concept) : Option Concept :=
  match Concept.applyDelta c.ensembles_by_id (Concept.buildDelta c.ensembles_by_id) with
  | none => none
  | some byid => some { c with ensembles_by_id := byid }

/-- `Concept.stimulate`: direct activation, one-hop spread, lateral
inhibition.  The returned name→rounded-activation display snapshot is not
modelled; the result is the post-call concept state (`none` = `KeyError`). -/
def Concept.stimulate (sim : FeatureEnsemble → List ℚ → ℚ) (c : Concept)
    (cues : List (String × List ℚ)) (gain : ℚ) : Option Concept :=
  match (Concept.directActivation sim c cues gain).spreadStep with
  | none => none
  | some c₂ => some c₂.lateral_inhibition

/-! ### Engram I/O (`serialize_engram` / `from_engram`) -/

/-- One serialized ensemble record. -/
structure EngEnsemble where
  ensemble_id : Uuid
  name : String
  modality : String
  vector : List ℚ
  links : List (Uuid × ℚ)
  deriving DecidableEq, Repr

/-- The serialized engram dictionary. -/
structure Engram where
  concept_id : Uuid
  name : String
  description : String
  ensembles : List EngEnsemble
  relationships : List RelTuple
  inhibition_gain : ℚ
  activation_threshold : ℚ
  metadata : List (String × String)
  deriving DecidableEq, Repr

/-- `Concept.serialize_engram`: ensembles in identity-map insertion order,
link keys stringified (bijective, modelled as identity). -/
def Concept.serialize_engram (c : Concept) : Engram :=
  { concept_id := c.concept_id, name := c.name, description := c.description,
    ensembles := c.ensembles_by_id.map (fun p =>
      { ensemble_id := p.2.ensemble_id, name := p.2.name,
        modality := p.2.modality, vector := p.2.vector, links := p.2.links }),
    relationships := c.relationships.map (fun r =>
      (r.relation_type, r.target_concept_id, r.description)),
    inhibition_gain := c.inhibition_gain,
    activation_threshold := c.activation_threshold,
    metadata := c.metadata }

/-- The ensemble built by the first loop of `from_engram` for one record:
`FeatureEnsemble(name, modality, vector)` with the serialized id preserved
(`e.ensemble_id = uuid.UUID(ed["ensemble_id"])`); description defaults to
`""`, activation to `0`, links start empty. -/
def stripEng (ed : EngEnsemble) : FeatureEnsemble :=
  { mkFeatureEnsemble 0 ed.name ed.modality ed.vector "" with
    ensemble_id := ed.ensemble_id }

/-- The same ensemble after the link-restoring pass. -/
def fullEng (ed : EngEnsemble) : FeatureEnsemble :=
  { stripEng ed with links := ed.links }

/-- The link-restoring pass of `from_engram`: for each record, look the
source ensemble up by its preserved id (a miss is a `KeyError`, `none`) and
write every serialized link into its link dict. -/
def Concept.restoreLinks (c : Concept) : List EngEnsemble → Option Concept
  | [] => some c
  | ed :: rest =>
    match dget? c.ensembles_by_id ed.ensemble_id with
    | none => none
    | some s =>
      let ls := ed.links.foldl (fun acc q => dset acc q.1 q.2) s.links
      let byid := dset c.ensembles_by_id ed.ensemble_id { s with links := ls }
      Concept.restoreLinks { c with ensembles_by_id := byid } rest

/-- `Concept.from_engram`: rebuild the concept, preserving every id.  The
`uuid4()` id generated by the intermediate `Concept(...)` call is dead (it is
overwritten by `data["concept_id"]` immediately), so no fresh id is needed. -/
def Concept.from_engram (data : Engram) : Option Concept :=
  let c₀ := { mkConcept 0 data.name data.description data.metadata
                data.inhibition_gain data.activation_threshold with
              concept_id := data.concept_id }
  let c₁ := data.ensembles.foldl (fun c ed => c.add_ensemble (stripEng ed)) c₀
  match Concept.restoreLinks c₁ data.ensembles with
  | none => none
  | some c₂ =>
    let rels := c₂.relationships ++ data.relationships.map (fun t => ⟨t.1, t.2.1, t.2.2⟩)
    some { c₂ with relationships := rels }

/-! ## `relations_utils.py` -/

/-- `list_relations`: a concept's edges as `(type, target_id, description)`
tuples, in list order. -/
def list_relations (c : Concept) : List RelTuple :=
  c.relationships.map (fun r => (r.relation_type, r.target_concept_id, r.description))

/-- Lexicographic sort key used by `diff_relations` (Python sorts by the
tuple `(type, target_id_string, description)`; the id component is compared
through its decimal string form, matching the stringified UUID). -/
def relLe (x y : RelTuple) : Bool :=
  if x.1 < y.1 then true
  else if y.1 < x.1 then false
  else if toString x.2.1 < toString y.2.1 then true
  else if toString y.2.1 < toString x.2.1 then false
  else decide (x.2.2 ≤ y.2.2)

/-- Insertion step of the stable sort used to model Python `list.sort(key=...)`. -/
def insertLe (x : RelTuple) : List RelTuple → List RelTuple
  | [] => [x]
  | y :: ys => if relLe x y then x :: y :: ys else y :: insertLe x ys

/-- `sorted(...)` over relation tuples. -/
def sortRels (l : List RelTuple) : List RelTuple := l.foldr insertLe []

/-- `set(xs) - set(ys)` realised on lists: the distinct elements of `xs`
that do not occur in `ys`. -/
def pySetDiff (xs ys : List RelTuple) : List RelTuple :=
  (xs.filter (fun x => decide (x ∉ ys))).dedup

/-- The `{"added": ..., "removed": ...}` delta dictionary. -/
structure RelDelta where
  added : List RelTuple
  removed : List RelTuple
  deriving DecidableEq, Repr

/-- `diff_relations`: set difference both ways, each sorted for display. -/
def diff_relations (before after : List RelTuple) : RelDelta :=
  { added := sortRels (pySetDiff after before),
    removed := sortRels (pySetDiff before after) }

/-! ## `manipulations.py`

Each operation returns `(result_concept | None, relation_deltas, notes)` and
may in principle mutate its arguments through Python references, so the
embedding of every operation also returns the post-call states of the two
argument concepts (`aAfter`, `bAfter`): a translated assignment into `a` or
`b` would have to show up there.  The display `notes` string is elided.

`merge_concepts`, `intersect_concepts` and `subtract_concepts` index the
source identity map directly on each link target
(`src.ensembles_by_id[tid]` / `a.ensembles_by_id[t_id]`), which raises
`KeyError` when the target is a dangling link; these three operations are
therefore embedded as `Option OpResult`, with `none` modelling the uncaught
exception propagating to the caller (no tuple is returned).
`compare_concepts` and `bind_relation` contain no fallible lookup and stay
total. -/

/-- Post-call states of both arguments plus the operation's result. -/
structure OpResult where
  aAfter : Concept
  bAfter : Concept
  result : Option Concept
  delta : RelDelta
  deriving DecidableEq, Repr

/-- `_copy_concept_shallow`: a fresh concept carrying over a's parameters. -/
def copy_concept_shallow (c : Concept) (new_name : String) (fresh : Uuid) : Concept :=
  mkConcept fresh new_name ("Derived from " ++ c.name) c.metadata
    c.inhibition_gain c.activation_threshold

/-- `compare_concepts`: reads both concepts to compute jaccard / mean vector
cosine / link-density metrics, but those numbers flow only into the elided
display note (the cosine involves float square roots); the modelled outputs
are exactly `(None, {"added": [], "removed": []})`, with no assignment into
either argument anywhere in the body. -/
def compare_concepts (a b : Concept) : OpResult :=
  { aAfter := a, bAfter := b, result := none, delta := { added := [], removed := [] } }

/-- The ensemble-copy loops of `merge_concepts`: copy all of `a`'s ensembles
verbatim, then all of `b`'s, suffixing a name with `__B` only when it
collides with a name already present; each copy gets a fresh id. -/
def mergeCopyEnsembles (a b : Concept) (c : Concept) (fresh : Uuid) : Concept :=
  let stepA :=
    a.ensembles_by_id.foldl
      (fun (acc : Concept × Uuid) p =>
        let ne := mkFeatureEnsemble acc.2 p.2.name p.2.modality p.2.vector p.2.description
        (acc.1.add_ensemble ne, acc.2 + 1))
      (c, fresh)
  let stepB :=
    b.ensembles_by_id.foldl
      (fun (acc : Concept × Uuid) p =>
        let name_b :=
          if (dget? acc.1.ensembles_by_name p.2.name).isSome then p.2.name ++ "__B"
          else p.2.name
        let ne := mkFeatureEnsemble acc.2 name_b p.2.modality p.2.vector p.2.description
        (acc.1.add_ensemble ne, acc.2 + 1))
      stepA
  stepB.1

/-- The inner loop of `copy_links`: for each link `(tid, w)` of one source
ensemble, `tname = src.ensembles_by_id[tid].name` — a direct dict indexing
that raises `KeyError` (`none`) when `tid` is a dangling link target — then
remap `tname + suffix` through the name table, writing the weight when the
remap hits and skipping silently when it misses (`name_to_id.get` returning
`None`). -/
def remapLinks (src : Concept) (suffix : String) (name_to_id : List (String × Uuid)) :
    List (Uuid × ℚ) → List (Uuid × ℚ) → Option (List (Uuid × ℚ))
  | [], ls => some ls
  | q :: rest, ls =>
    match dget? src.ensembles_by_id q.1 with
    | none => none
    | some te =>
      match dget? name_to_id (te.name ++ suffix) with
      | none => remapLinks src suffix name_to_id rest ls
      | some tid2 => remapLinks src suffix name_to_id rest (dset ls tid2 q.2)

/-- The outer loop of `copy_links` over the source ensembles:
`name_to_id.get(sname)` misses are skipped (`continue`), while the direct
indexing `c.ensembles_by_id[sid]` raises `KeyError` (`none`) on a miss. -/
def copyLinksGo (src : Concept) (suffix : String) (name_to_id : List (String × Uuid)) :
    List (Uuid × FeatureEnsemble) → Concept → Option Concept
  | [], c => some c
  | p :: rest, c =>
    match dget? name_to_id (p.2.name ++ suffix) with
    | none => copyLinksGo src suffix name_to_id rest c
    | some sid =>
      match dget? c.ensembles_by_id sid with
      | none => none
      | some se =>
        match remapLinks src suffix name_to_id p.2.links se.links with
        | none => none
        | some ls =>
          let byid := dset c.ensembles_by_id sid { se with links := ls }
          copyLinksGo src suffix name_to_id rest { c with ensembles_by_id := byid }

/-- `copy_links` inside `merge_concepts`: remap each source-block link
through the name→new-identity table, appending `suffix` to both endpoint
names (the Python `x if suffix == "" else x + suffix` equals `x ++ suffix`).
`none` models a `KeyError` escaping the loop. -/
def copy_links (src : Concept) (suffix : String) (name_to_id : List (String × Uuid))
    (c : Concept) : Option Concept :=
  copyLinksGo src suffix name_to_id src.ensembles_by_id c

/-- `merge_concepts`: union of ensembles and links, plus two `MERGED_FROM`
edges back to the sources.  `fresh` supplies the `uuid4()` ids (the new
concept's id, then one per copied ensemble).  `none` models a `KeyError`
raised by `copy_links` on a dangling link target. -/
def merge_concepts (a b : Concept) (new_name : String) (fresh : Uuid) :
    Option OpResult :=
  let c₀ := copy_concept_shallow a new_name fresh
  let c₁ := mergeCopyEnsembles a b c₀ (fresh + 1)
  let name_to_id :=
    c₁.ensembles_by_id.foldl (fun d p => dset d p.2.name p.1) []
  match copy_links a "" name_to_id c₁ with
  | none => none
  | some c₂ =>
    match copy_links b "__B" name_to_id c₂ with
    | none => none
    | some c₃ =>
      let c₄ := c₃.add_relationship "MERGED_FROM" a.concept_id ("source:" ++ a.name)
      let c₅ := c₄.add_relationship "MERGED_FROM" b.concept_id ("source:" ++ b.name)
      some { aAfter := a, bAfter := b, result := some c₅,
             delta := { added := list_relations c₅, removed := [] } }

/-- The per-ensemble link loop of `intersect_concepts`:
`t_name = a.ensembles_by_id[t_id].name` is a direct dict indexing that
raises `KeyError` (`none`) on a dangling link target; a `name_to_new_id`
miss is only a skipped link. -/
def intersectRemap (a : Concept) (name_to_new_id : List (String × Uuid)) :
    List (Uuid × ℚ) → List (Uuid × ℚ) → Option (List (Uuid × ℚ))
  | [], ls => some ls
  | q :: rest, ls =>
    match dget? a.ensembles_by_id q.1 with
    | none => none
    | some te =>
      match dget? name_to_new_id te.name with
      | none => intersectRemap a name_to_new_id rest ls
      | some nid => intersectRemap a name_to_new_id rest (dset ls nid q.2)

/-- The link-recreation loop of `intersect_concepts` over the shared names
(`a.get_ensemble` / `result.get_ensemble` misses are `continue`d). -/
def intersectLinksGo (a : Concept) (name_to_new_id : List (String × Uuid)) :
    List (String × Uuid) → Concept → Option Concept
  | [], c => some c
  | pr :: rest, c =>
    match a.get_ensemble pr.1 with
    | none => intersectLinksGo a name_to_new_id rest c
    | some ea =>
      match c.get_ensemble pr.1 with
      | none => intersectLinksGo a name_to_new_id rest c
      | some se =>
        match intersectRemap a name_to_new_id ea.links se.links with
        | none => none
        | some ls =>
          let byid := dset c.ensembles_by_id se.ensemble_id { se with links := ls }
          intersectLinksGo a name_to_new_id rest { c with ensembles_by_id := byid }

/-- `intersect_concepts`: keep ensembles whose name occurs in both concepts
(data taken from a's copy), re-create links between surviving endpoints, and
add the relationships shared by a and b (matched on `(type, target)`; the
Python iterates a nondeterministically ordered `set`, modelled here by the
deduplicated a-side list order).  `none` models the `KeyError` raised by
the link-recreation loop on a dangling link target in a. -/
def intersect_concepts (a b : Concept) (new_name : String) (fresh : Uuid) :
    Option OpResult :=
  let result₀ := copy_concept_shallow a new_name fresh
  let shared :=
    a.ensembles_by_name.filter (fun p => decide ((dget? b.ensembles_by_name p.1).isSome))
  let step :=
    shared.foldl
      (fun (acc : Concept × List (String × Uuid) × Uuid) p =>
        match a.get_ensemble p.1 with
        | none => acc
        | some ea =>
          let ne := mkFeatureEnsemble acc.2.2 ea.name ea.modality ea.vector ea.description
          (acc.1.add_ensemble ne, dset acc.2.1 p.1 ne.ensemble_id, acc.2.2 + 1))
      (result₀, [], fresh + 1)
  match intersectLinksGo a step.2.1 shared step.1 with
  | none => none
  | some result₂ =>
    let rels_a := (a.relationships.map (fun r => (r.relation_type, r.target_concept_id))).dedup
    let shared_rels := rels_a.filter
      (fun t => decide (t ∈ b.relationships.map (fun r => (r.relation_type, r.target_concept_id))))
    let result₃ :=
      shared_rels.foldl (fun c t => c.add_relationship t.1 t.2 "shared relation") result₂
    some { aAfter := a, bAfter := b, result := some result₃,
           delta := { added := list_relations result₃, removed := [] } }

/-- The per-ensemble link loop of `subtract_concepts`:
`tname = a.ensembles_by_id[tid].name` is a direct dict indexing that raises
`KeyError` (`none`) on a dangling link target; a `name_to_new` miss is only
a skipped link. -/
def subtractRemap (a : Concept) (name_to_new : List (String × Uuid)) :
    List (Uuid × ℚ) → List (Uuid × ℚ) → Option (List (Uuid × ℚ))
  | [], ls => some ls
  | q :: rest, ls =>
    match dget? a.ensembles_by_id q.1 with
    | none => none
    | some te =>
      match dget? name_to_new te.name with
      | none => subtractRemap a name_to_new rest ls
      | some nid => subtractRemap a name_to_new rest (dset ls nid q.2)

/-- The link-retention loop of `subtract_concepts` over the kept ensembles
(a `c.get_ensemble` miss is `continue`d). -/
def subtractLinksGo (a : Concept) (name_to_new : List (String × Uuid)) :
    List (Uuid × FeatureEnsemble) → Concept → Option Concept
  | [], c => some c
  | p :: rest, c =>
    match c.get_ensemble p.2.name with
    | none => subtractLinksGo a name_to_new rest c
    | some se =>
      match subtractRemap a name_to_new p.2.links se.links with
      | none => none
      | some ls =>
        let byid := dset c.ensembles_by_id se.ensemble_id { se with links := ls }
        subtractLinksGo a name_to_new rest { c with ensembles_by_id := byid }

/-- `subtract_concepts`: keep a's ensembles whose name is not in b, with
links between surviving endpoints; no relationships are copied.  `none`
models the `KeyError` raised by the link loop on a dangling link target
in a. -/
def subtract_concepts (a b : Concept) (new_name : String) (fresh : Uuid) :
    Option OpResult :=
  let c₀ := copy_concept_shallow a new_name fresh
  let keep :=
    a.ensembles_by_id.filter
      (fun p => decide (¬(dget? b.ensembles_by_name p.2.name).isSome))
  let step :=
    keep.foldl
      (fun (acc : Concept × List (String × Uuid) × Uuid) p =>
        let ne := mkFeatureEnsemble acc.2.2 p.2.name p.2.modality p.2.vector p.2.description
        (acc.1.add_ensemble ne, dset acc.2.1 p.2.name ne.ensemble_id, acc.2.2 + 1))
      (c₀, [], fresh + 1)
  match subtractLinksGo a step.2.1 keep step.1 with
  | none => none
  | some c₂ =>
    some { aAfter := a, bAfter := b, result := some c₂,
           delta := { added := [], removed := [] } }

/-- `bind_relation`: append one edge from a to b (mutating a) and report the
before/after diff. -/
def bind_relation (a b : Concept) (relation_type desc : String) : OpResult :=
  let before := list_relations a
  let a₂ := a.add_relationship relation_type b.concept_id desc
  let after := list_relations a₂
  { aAfter := a₂, bAfter := b, result := some a₂,
    delta := diff_relations before after }

/-! ## `cell_ensemble_rt.py`

Unit keys are strings; the pairwise weight map is a Python dict keyed by
ordered pairs.  The optional `registry` similarity oracle (detected via
`hasattr(registry, "cosine")` in Python) is modelled as an optional
`cosine : key → key → ℚ` capability. -/

/-- `CellEnsembleRT` dataclass state. -/
structure RTState where
  name : String
  units : List String
  context_tags : List String
  scheduled : List (ℚ × List (String × ℚ))
  weights : List ((String × String) × ℚ)
  eta_hebb : ℚ
  decay : ℚ
  max_weight : ℚ
  t : ℚ
  dt0 : ℚ
  active_last_step : List String
  registry : Option (String → String → ℚ)

/-- A fresh `CellEnsembleRT(name)` with the dataclass defaults. -/
def freshRT (name : String) : RTState :=
  { name := name, units := [], context_tags := [], scheduled := [],
    weights := [], eta_hebb := 1 / 50, decay := 999 / 1000, max_weight := 1,
    t := 0, dt0 := 1 / 100, active_last_step := [], registry := none }

/-- `add_units`: add each key to the membership set. -/
def RTState.add_units (st : RTState) (keys : List String) : RTState :=
  { st with units := keys.foldl setInsert st.units }

/-- `schedule_spike`: auto-register the key, clamp strength to `[0, 1]`,
append the event to the bucket at time `t` (`setdefault` + `append`). -/
def RTState.schedule_spike (st : RTState) (t : ℚ) (key : String) (strength : ℚ) :
    RTState :=
  let units := setInsert st.units key
  let s := max 0 (min 1 strength)
  let evs := (dget? st.scheduled t).getD []
  { st with units := units, scheduled := dset st.scheduled t (evs ++ [(key, s)]) }

/-- `schedule_pattern`: bulk schedule. -/
def RTState.schedule_pattern (st : RTState) (spikes : List (ℚ × String × ℚ)) :
    RTState :=
  spikes.foldl (fun st p => st.schedule_spike p.1 p.2.1 p.2.2) st

/-- `_hebb_increment`: `eta_hebb`, similarity-scaled when a cosine oracle is
available. -/
def RTState.hebb_increment (st : RTState) (a b : String) : ℚ :=
  match st.registry with
  | some cos => st.eta_hebb * (1 / 2 + 1 / 2 * max 0 (cos a b))
  | none => st.eta_hebb

/-- The fired-unit set of one step: every key of an event in a bucket with
timestamp in `(t0, t1]`, collected with set semantics. -/
def fireWindow (t0 t1 : ℚ) (sched : List (ℚ × List (String × ℚ))) : List String :=
  sched.foldl
    (fun acc p =>
      if t0 < p.1 ∧ p.1 ≤ t1 then p.2.foldl (fun a q => setInsert a q.1) acc else acc)
    []

/-- Weight decay and pruning: every weight is multiplied by `decay`, entries
with `abs(w) < 1e-6` are deleted (the Python iterates `list(keys)` updating
and deleting in place, which preserves entry order). -/
def decayPrune (w : List ((String × String) × ℚ)) (decay : ℚ) :
    List ((String × String) × ℚ) :=
  (w.map (fun p => (p.1, p.2 * decay))).filter (fun p => decide (1 / 1000000 ≤ |p.2|))

/-- All index pairs `i < j` of the fired list (the nested Hebbian loops). -/
def pairsOf {α : Type} : List α → List (α × α)
  | [] => []
  | x :: xs => xs.map (fun y => (x, y)) ++ pairsOf xs

/-- Canonicalized weight key: `(a, b) if a < b else (b, a)`. -/
def canonKey (a b : String) : String × String :=
  if a < b then (a, b) else (b, a)

/-- The Hebbian phase: for each co-fired pair, add the increment to the
canonical key's weight and cap at `max_weight`. -/
def hebbPhase (st : RTState) (w : List ((String × String) × ℚ))
    (pairs : List (String × String)) : List ((String × String) × ℚ) :=
  pairs.foldl
    (fun w p =>
      let key := canonKey p.1 p.2
      let wv := (dget? w key).getD 0 + st.hebb_increment p.1 p.2
      dset w key (min wv st.max_weight))
    w

/-- `activate_step(dt)`: advance time, fire the events in `(t0, t0+dt]` and
delete their buckets, decay-and-prune the weights, apply Hebbian updates to
co-fired pairs, record the fired set.  Returns the fired set and the new
state (`dt = none` uses the internal default step). -/
def RTState.activate_step (st : RTState) (dtArg : Option ℚ) :
    List String × RTState :=
  let dt := dtArg.getD st.dt0
  let t0 := st.t
  let t1 := st.t + dt
  let fired := fireWindow t0 t1 st.scheduled
  let sched := st.scheduled.filter (fun p => decide (¬(t0 < p.1 ∧ p.1 ≤ t1)))
  let w₁ := decayPrune st.weights st.decay
  let w₂ := if fired.isEmpty then w₁ else hebbPhase st w₁ (pairsOf fired)
  (fired,
   { st with scheduled := sched, weights := w₂, active_last_step := fired, t := t1 })

/-! ## Reachable states -/

/-- Concept states reachable from a fresh `Concept(...)` by any sequence of
`add_ensemble`, `stimulate`, `learn_hebbian`, `add_relationship`,
`decay_all` calls (a `stimulate` that raises contributes no state). -/
inductive CReach : Concept → Prop where
  | init (cid : Uuid) (name description : String) (md : List (String × String))
      (g thr : ℚ) : CReach (mkConcept cid name description md g thr)
  | add (c : Concept) (e : FeatureEnsemble) : CReach c → CReach (c.add_ensemble e)
  | stim (c c₂ : Concept) (sim : FeatureEnsemble → List ℚ → ℚ)
      (cues : List (String × List ℚ)) (gain : ℚ) :
      CReach c → Concept.stimulate sim c cues gain = some c₂ → CReach c₂
  | learn (c : Concept) (lr : ℚ) (minAct : Option ℚ) :
      CReach c → CReach (c.learn_hebbian lr minAct)
  | rel (c : Concept) (rt : String) (tid : Uuid) (descr : String) :
      CReach c → CReach (c.add_relationship rt tid descr)
  | decay (c : Concept) (f : ℚ) : CReach c → CReach (c.decay_all f)

/-- As `CReach`, but every `add_ensemble` call uses a name that is not yet
present in the name index (no name collisions). -/
inductive CReachD : Concept → Prop where
  | init (cid : Uuid) (name description : String) (md : List (String × String))
      (g thr : ℚ) : CReachD (mkConcept cid name description md g thr)
  | add (c : Concept) (e : FeatureEnsemble) :
      CReachD c → dget? c.ensembles_by_name e.name = none →
      CReachD (c.add_ensemble e)
  | stim (c c₂ : Concept) (sim : FeatureEnsemble → List ℚ → ℚ)
      (cues : List (String × List ℚ)) (gain : ℚ) :
      CReachD c → Concept.stimulate sim c cues gain = some c₂ → CReachD c₂
  | learn (c : Concept) (lr : ℚ) (minAct : Option ℚ) :
      CReachD c → CReachD (c.learn_hebbian lr minAct)
  | rel (c : Concept) (rt : String) (tid : Uuid) (descr : String) :
      CReachD c → CReachD (c.add_relationship rt tid descr)
  | decay (c : Concept) (f : ℚ) : CReachD c → CReachD (c.decay_all f)

/-- Every name in the name index resolves to a present ensemble. -/
def namesOk (c : Concept) : Bool :=
  c.ensembles_by_name.all (fun p => (dget? c.ensembles_by_id p.2).isSome)

/-- Every ensemble in the identity map is reachable from some name. -/
def idsCovered (c : Concept) : Bool :=
  c.ensembles_by_id.all (fun p => c.ensembles_by_name.any (fun q => q.2 = p.1))

/-- RT states reachable from a fresh `CellEnsembleRT(name)` by any sequence
of `add_units`, `schedule_spike`, `schedule_pattern`, `activate_step`. -/
inductive RTReach : RTState → Prop where
  | init (name : String) : RTReach (freshRT name)
  | add_units (st : RTState) (ks : List String) :
      RTReach st → RTReach (st.add_units ks)
  | spike (st : RTState) (t : ℚ) (k : String) (s : ℚ) :
      RTReach st → RTReach (st.schedule_spike t k s)
  | pattern (st : RTState) (sps : List (ℚ × String × ℚ)) :
      RTReach st → RTReach (st.schedule_pattern sps)
  | step (st : RTState) (dtArg : Option ℚ) :
      RTReach st → RTReach (st.activate_step dtArg).2

/-- Every pairwise weight key is strictly ordered. -/
def weightsOrdered (st : RTState) : Bool :=
  st.weights.all (fun p => decide (p.1.1 < p.1.2))

/-! ## Supporting lemmas about the dict model -/

theorem dget?_isSome_iff_mem {α β : Type} [DecidableEq α]
    (d : List (α × β)) (k : α) : (dget? d k).isSome ↔ k ∈ dkeys d := by
  induction d with
  | nil => simp
  | cons p rest ih =>
    obtain ⟨k₁, v₁⟩ := p
    by_cases h : k₁ = k
    · subst h; simp
    · have hne : ¬k = k₁ := fun hh => h hh.symm
      simp [dget?, h, hne, ih]

theorem mem_dset {α β : Type} [DecidableEq α]
    (d : List (α × β)) (k : α) (v : β) (q : α × β) (hq : q ∈ dset d k v) :
    q = (k, v) ∨ q ∈ d := by
  induction d with
  | nil => simpa [dset] using hq
  | cons p rest ih =>
    obtain ⟨k₁, v₁⟩ := p
    by_cases h : k₁ = k
    · subst h
      simp only [dset, if_true] at hq
      rcases List.mem_cons.mp hq with h₁ | h₂
      · exact Or.inl h₁
      · exact Or.inr (List.mem_cons_of_mem _ h₂)
    · simp only [dset, h, if_false] at hq
      rcases List.mem_cons.mp hq with h₁ | h₂
      · exact Or.inr (h₁ ▸ List.mem_cons_self _ _)
      · rcases ih h₂ with h₃ | h₄
        · exact Or.inl h₃
        · exact Or.inr (List.mem_cons_of_mem _ h₄)

theorem dset_eq_append_of_not_mem {α β : Type} [DecidableEq α]
    (d : List (α × β)) (k : α) (v : β) (h : k ∉ dkeys d) :
    dset d k v = d ++ [(k, v)] := by
  induction d with
  | nil => rfl
  | cons p rest ih =>
    obtain ⟨k₁, v₁⟩ := p
    simp only [dkeys_cons, List.mem_cons] at h
    push_neg at h
    have hne : ¬k₁ = k := fun hh => h.1 hh.symm
    simp [dset, hne, ih h.2]

theorem dkeys_dset_of_mem {α β : Type} [DecidableEq α]
    (d : List (α × β)) (k : α) (v : β) (h : k ∈ dkeys d) :
    dkeys (dset d k v) = dkeys d := by
  rw [dkeys_dset]; simp [h]

theorem dget?_append_of_not_mem_left {α β : Type} [DecidableEq α]
    (d₁ d₂ : List (α × β)) (k : α) (h : k ∉ dkeys d₁) :
    dget? (d₁ ++ d₂) k = dget? d₂ k := by
  induction d₁ with
  | nil => rfl
  | cons p rest ih =>
    obtain ⟨k₁, v₁⟩ := p
    simp only [dkeys_cons, List.mem_cons] at h
    push_neg at h
    have hne : ¬k₁ = k := fun hh => h.1 hh.symm
    simp [dget?, hne, ih h.2]

theorem dset_append_right {α β : Type} [DecidableEq α]
    (d₁ : List (α × β)) (k : α) (x v : β) (rest : List (α × β))
    (h : k ∉ dkeys d₁) :
    dset (d₁ ++ (k, x) :: rest) k v = d₁ ++ (k, v) :: rest := by
  induction d₁ with
  | nil => simp [dset]
  | cons p d ih =>
    obtain ⟨k₁, v₁⟩ := p
    simp only [dkeys_cons, List.mem_cons] at h
    push_neg at h
    have hne : ¬k₁ = k := fun hh => h.1 hh.symm
    simp [dset, hne, ih h.2]

theorem foldl_dset_of_nodup {α β : Type} [DecidableEq α]
    (l acc : List (α × β)) (h : (dkeys (acc ++ l)).Nodup) :
    l.foldl (fun a q => dset a q.1 q.2) acc = acc ++ l := by
  induction l generalizing acc with
  | nil => simp
  | cons q rest ih =>
    have hq : q.1 ∉ dkeys acc := by
      intro hm
      have : (dkeys (acc ++ q :: rest)).Nodup := h
      rw [show dkeys (acc ++ q :: rest) = dkeys acc ++ q.1 :: dkeys rest by
            simp [dkeys]] at this
      exact (List.disjoint_of_nodup_append this) hm (List.mem_cons_self _ _)
    have hstep : dset acc q.1 q.2 = acc ++ [q] := by
      rw [dset_eq_append_of_not_mem acc q.1 q.2 hq]
    have h₂ : (dkeys ((acc ++ [q]) ++ rest)).Nodup := by
      simpa using h
    calc (q :: rest).foldl (fun a q => dset a q.1 q.2) acc
        = rest.foldl (fun a q => dset a q.1 q.2) (acc ++ [q]) := by
          simp [List.foldl_cons, hstep]
      _ = (acc ++ [q]) ++ rest := ih (acc ++ [q]) h₂
      _ = acc ++ q :: rest := by simp

theorem dkeys_map_keyfix {α β γ : Type} (l : List (α × β)) (f : α × β → α × γ)
    (h : ∀ p ∈ l, (f p).1 = p.1) : dkeys (l.map f) = dkeys l := by
  induction l with
  | nil => rfl
  | cons p rest ih =>
    simp only [List.map_cons, dkeys_cons]
    rw [h p (List.mem_cons_self _ _), ih fun q hq => h q (List.mem_cons_of_mem _ hq)]

/-! ## Claim C8 -/

/-- Every link in the concept resolves to a present ensemble (no dangling
link targets). -/
abbrev LinksResolvable (c : Concept) : Prop :=
  ∀ p ∈ c.ensembles_by_id, ∀ q ∈ p.2.links, (dget? c.ensembles_by_id q.1).isSome

theorem dget?_mem {α β : Type} [DecidableEq α]
    (d : List (α × β)) (k : α) (v : β) (h : dget? d k = some v) : (k, v) ∈ d := by
  induction d with
  | nil => simp [dget?] at h
  | cons p rest ih =>
    obtain ⟨k₁, v₁⟩ := p
    by_cases hk : k₁ = k
    · subst hk
      have h₂ : v₁ = v := by
        have h₃ : dget? ((k₁, v₁) :: rest) k₁ = some v₁ := by simp [dget?]
        rw [h₃] at h
        injection h
      rw [← h₂]
      exact List.mem_cons_self _ _
    · simp only [dget?, if_neg hk] at h
      exact List.mem_cons_of_mem _ (ih h)

theorem get_ensemble_mem (c : Concept) (name : String) (e : FeatureEnsemble)
    (h : c.get_ensemble name = some e) : ∃ eid, (eid, e) ∈ c.ensembles_by_id := by
  unfold Concept.get_ensemble at h
  cases hn : dget? c.ensembles_by_name name with
  | none => rw [hn] at h; simp at h
  | some eid =>
    rw [hn] at h
    have h₂ : dget? c.ensembles_by_id eid = some e := h
    exact ⟨eid, dget?_mem _ _ _ h₂⟩

theorem remapLinks_ne_none (src : Concept) (suffix : String)
    (n : List (String × Uuid)) :
    ∀ links : List (Uuid × ℚ),
    (∀ q ∈ links, (dget? src.ensembles_by_id q.1).isSome) →
    ∀ ls, remapLinks src suffix n links ls ≠ none := by
  intro links
  induction links with
  | nil => intro _ ls h; exact Option.noConfusion h
  | cons q rest ih =>
    intro hq ls
    obtain ⟨te, hte⟩ := Option.isSome_iff_exists.mp (hq q (List.mem_cons_self _ _))
    have hrest := fun q₂ h₂ => hq q₂ (List.mem_cons_of_mem _ h₂)
    cases hn₂ : dget? n (te.name ++ suffix) with
    | none =>
      simp only [remapLinks, hte, hn₂]
      exact ih hrest ls
    | some tid2 =>
      simp only [remapLinks, hte, hn₂]
      exact ih hrest (dset ls tid2 q.2)

theorem copyLinksGo_ne_none (src : Concept) (suffix : String)
    (n : List (String × Uuid)) :
    ∀ (l : List (Uuid × FeatureEnsemble)) (c : Concept),
    (∀ p ∈ l, ∀ q ∈ p.2.links, (dget? src.ensembles_by_id q.1).isSome) →
    (∀ pr ∈ n, pr.2 ∈ dkeys c.ensembles_by_id) →
    copyLinksGo src suffix n l c ≠ none := by
  intro l
  induction l with
  | nil => intro c _ _ h; exact Option.noConfusion h
  | cons p rest ih =>
    intro c hl hn
    cases hs : dget? n (p.2.name ++ suffix) with
    | none =>
      simp only [copyLinksGo, hs]
      exact ih c (fun p₂ h₂ => hl p₂ (List.mem_cons_of_mem _ h₂)) hn
    | some sid =>
      have hsid : sid ∈ dkeys c.ensembles_by_id := hn _ (dget?_mem _ _ _ hs)
      obtain ⟨se, hse⟩ := Option.isSome_iff_exists.mp
        ((dget?_isSome_iff_mem _ _).mpr hsid)
      cases hls : remapLinks src suffix n p.2.links se.links with
      | none =>
        exact absurd hls
          (remapLinks_ne_none src suffix n p.2.links
            (hl p (List.mem_cons_self _ _)) se.links)
      | some ls =>
        simp only [copyLinksGo, hs, hse, hls]
        refine ih _ (fun p₂ h₂ => hl p₂ (List.mem_cons_of_mem _ h₂)) ?_
        intro pr hpr
        show pr.2 ∈ dkeys (dset c.ensembles_by_id sid { se with links := ls })
        rw [dkeys_dset_of_mem _ _ _ hsid]
        exact hn pr hpr

theorem copyLinksGo_dkeys (src : Concept) (suffix : String)
    (n : List (String × Uuid)) :
    ∀ (l : List (Uuid × FeatureEnsemble)) (c c₂ : Concept),
    copyLinksGo src suffix n l c = some c₂ →
    dkeys c₂.ensembles_by_id = dkeys c.ensembles_by_id := by
  intro l
  induction l with
  | nil =>
    intro c c₂ h
    simp only [copyLinksGo, Option.some.injEq] at h
    rw [← h]
  | cons p rest ih =>
    intro c c₂ h
    cases hs : dget? n (p.2.name ++ suffix) with
    | none =>
      simp only [copyLinksGo, hs] at h
      exact ih c c₂ h
    | some sid =>
      cases hse : dget? c.ensembles_by_id sid with
      | none =>
        simp only [copyLinksGo, hs, hse] at h
        exact Option.noConfusion h
      | some se =>
        cases hls : remapLinks src suffix n p.2.links se.links with
        | none =>
          simp only [copyLinksGo, hs, hse, hls] at h
          exact Option.noConfusion h
        | some ls =>
          simp only [copyLinksGo, hs, hse, hls] at h
          have hsid : sid ∈ dkeys c.ensembles_by_id :=
            (dget?_isSome_iff_mem _ _).mp (by rw [hse]; rfl)
          rw [ih _ _ h]
          exact dkeys_dset_of_mem _ _ _ hsid

theorem foldl_nameTable_values (K : List Uuid) :
    ∀ (l : List (Uuid × FeatureEnsemble)) (init : List (String × Uuid)),
    (∀ p ∈ l, p.1 ∈ K) → (∀ pr ∈ init, pr.2 ∈ K) →
    ∀ pr ∈ l.foldl (fun d p => dset d p.2.name p.1) init, pr.2 ∈ K := by
  intro l
  induction l with
  | nil => intro init _ hinit; exact hinit
  | cons p rest ih =>
    intro init hl hinit
    rw [List.foldl_cons]
    refine ih _ (fun p₂ h₂ => hl p₂ (List.mem_cons_of_mem _ h₂)) ?_
    intro pr hpr
    rcases mem_dset _ _ _ pr hpr with h₁ | h₂
    · rw [h₁]
      exact hl p (List.mem_cons_self _ _)
    · exact hinit pr h₂

theorem intersectRemap_ne_none (a : Concept) (n : List (String × Uuid)) :
    ∀ links : List (Uuid × ℚ),
    (∀ q ∈ links, (dget? a.ensembles_by_id q.1).isSome) →
    ∀ ls, intersectRemap a n links ls ≠ none := by
  intro links
  induction links with
  | nil => intro _ ls h; exact Option.noConfusion h
  | cons q rest ih =>
    intro hq ls
    obtain ⟨te, hte⟩ := Option.isSome_iff_exists.mp (hq q (List.mem_cons_self _ _))
    have hrest := fun q₂ h₂ => hq q₂ (List.mem_cons_of_mem _ h₂)
    cases hn₂ : dget? n te.name with
    | none =>
      simp only [intersectRemap, hte, hn₂]
      exact ih hrest ls
    | some nid =>
      simp only [intersectRemap, hte, hn₂]
      exact ih hrest (dset ls nid q.2)

theorem intersectLinksGo_ne_none (a : Concept) (n : List (String × Uuid))
    (ha : LinksResolvable a) :
    ∀ (l : List (String × Uuid)) (c : Concept),
    intersectLinksGo a n l c ≠ none := by
  intro l
  induction l with
  | nil => intro c h; exact Option.noConfusion h
  | cons pr rest ih =>
    intro c
    cases hea : a.get_ensemble pr.1 with
    | none =>
      simp only [intersectLinksGo, hea]
      exact ih c
    | some ea =>
      have hq : ∀ q ∈ ea.links, (dget? a.ensembles_by_id q.1).isSome := by
        obtain ⟨eid, hmem⟩ := get_ensemble_mem a pr.1 ea hea
        exact fun q hq₂ => ha (eid, ea) hmem q hq₂
      cases hse : c.get_ensemble pr.1 with
      | none =>
        simp only [intersectLinksGo, hea, hse]
        exact ih c
      | some se =>
        cases hrem : intersectRemap a n ea.links se.links with
        | none => exact absurd hrem (intersectRemap_ne_none a n ea.links hq se.links)
        | some ls =>
          simp only [intersectLinksGo, hea, hse, hrem]
          exact ih _

theorem subtractRemap_ne_none (a : Concept) (n : List (String × Uuid)) :
    ∀ links : List (Uuid × ℚ),
    (∀ q ∈ links, (dget? a.ensembles_by_id q.1).isSome) →
    ∀ ls, subtractRemap a n links ls ≠ none := by
  intro links
  induction links with
  | nil => intro _ ls h; exact Option.noConfusion h
  | cons q rest ih =>
    intro hq ls
    obtain ⟨te, hte⟩ := Option.isSome_iff_exists.mp (hq q (List.mem_cons_self _ _))
    have hrest := fun q₂ h₂ => hq q₂ (List.mem_cons_of_mem _ h₂)
    cases hn₂ : dget? n te.name with
    | none =>
      simp only [subtractRemap, hte, hn₂]
      exact ih hrest ls
    | some nid =>
      simp only [subtractRemap, hte, hn₂]
      exact ih hrest (dset ls nid q.2)

theorem subtractLinksGo_ne_none (a : Concept) (n : List (String × Uuid)) :
    ∀ l : List (Uuid × FeatureEnsemble),
    (∀ p ∈ l, ∀ q ∈ p.2.links, (dget? a.ensembles_by_id q.1).isSome) →
    ∀ c : Concept, subtractLinksGo a n l c ≠ none := by
  intro l
  induction l with
  | nil => intro _ c h; exact Option.noConfusion h
  | cons p rest ih =>
    intro hl c
    have hrest := fun p₂ h₂ q hq => hl p₂ (List.mem_cons_of_mem _ h₂) q hq
    cases hse : c.get_ensemble p.2.name with
    | none =>
      simp only [subtractLinksGo, hse]
      exact ih hrest c
    | some se =>
      cases hrem : subtractRemap a n p.2.links se.links with
      | none =>
        exact absurd hrem
          (subtractRemap_ne_none a n p.2.links
            (hl p (List.mem_cons_self _ _)) se.links)
      | some ls =>
        simp only [subtractLinksGo, hse, hrem]
        exact ih hrest _

theorem merge_concepts_frame (a b : Concept) (nm : String) (f : Uuid)
    (r : OpResult) (h : merge_concepts a b nm f = some r) :
    r.aAfter = a ∧ r.bAfter = b ∧ ∃ c, r.result = some c := by
  simp only [merge_concepts] at h
  split at h
  · exact absurd h (by simp)
  · split at h
    · exact absurd h (by simp)
    · injection h with h₂
      rw [← h₂]
      exact ⟨rfl, rfl, _, rfl⟩

theorem intersect_concepts_frame (a b : Concept) (ni : String) (g : Uuid)
    (r : OpResult) (h : intersect_concepts a b ni g = some r) :
    r.aAfter = a ∧ r.bAfter = b ∧ ∃ c, r.result = some c := by
  simp only [intersect_concepts] at h
  split at h
  · exact absurd h (by simp)
  · injection h with h₂
    rw [← h₂]
    exact ⟨rfl, rfl, _, rfl⟩

theorem subtract_concepts_frame (a b : Concept) (ns : String) (k : Uuid)
    (r : OpResult) (h : subtract_concepts a b ns k = some r) :
    r.aAfter = a ∧ r.bAfter = b ∧ ∃ c, r.result = some c := by
  simp only [subtract_concepts] at h
  split at h
  · exact absurd h (by simp)
  · injection h with h₂
    rw [← h₂]
    exact ⟨rfl, rfl, _, rfl⟩

theorem merge_concepts_some (a b : Concept) (nm : String) (f : Uuid)
    (ha : LinksResolvable a) (hb : LinksResolvable b) :
    ∃ r, merge_concepts a b nm f = some r := by
  rw [← Option.isSome_iff_exists]
  simp only [merge_concepts, copy_links]
  split
  next heq =>
    exact absurd heq (copyLinksGo_ne_none a "" _ _ _ ha
      (foldl_nameTable_values _ _ _ (fun p hp => List.mem_map_of_mem Prod.fst hp)
        (fun pr hpr => absurd hpr (List.not_mem_nil _))))
  next c₂ heq =>
    split
    next heq₂ =>
      refine absurd heq₂ (copyLinksGo_ne_none b "__B" _ _ _ hb ?_)
      intro pr hpr
      rw [copyLinksGo_dkeys a "" _ _ _ _ heq]
      exact foldl_nameTable_values _ _ _
        (fun p hp => List.mem_map_of_mem Prod.fst hp)
        (fun pr₂ hpr₂ => absurd hpr₂ (List.not_mem_nil _)) pr hpr
    next => rfl

theorem intersect_concepts_some (a b : Concept) (ni : String) (g : Uuid)
    (ha : LinksResolvable a) :
    ∃ r, intersect_concepts a b ni g = some r := by
  rw [← Option.isSome_iff_exists]
  simp only [intersect_concepts]
  split
  next heq => exact absurd heq (intersectLinksGo_ne_none a _ ha _ _)
  next => rfl

theorem subtract_concepts_some (a b : Concept) (ns : String) (k : Uuid)
    (ha : LinksResolvable a) :
    ∃ r, subtract_concepts a b ns k = some r := by
  rw [← Option.isSome_iff_exists]
  simp only [subtract_concepts]
  split
  next heq =>
    exact absurd heq (subtractLinksGo_ne_none a _ _
      (fun p hp q hq => ha p (List.mem_of_mem_filter hp) q hq) _)
  next => rfl

/-- A concept holding one ensemble with a dangling link (target id 99 is not
present), on which the constructive operations raise. -/
def c8Dang : Concept :=
  { mkConcept 30 "G" "" [] (1 / 4) (3 / 20) with
    ensembles_by_id :=
      [(0, { mkFeatureEnsemble 0 "e" "m" [1] "" with links := [(99, 1)] })],
    ensembles_by_name := [("e", 0)] }

/-- An empty partner concept for the dangling-link exhibits. -/
def c8Plain : Concept := mkConcept 31 "H" "" [] (1 / 4) (3 / 20)

/-- C8 counterexample: on a concept holding a dangling link,
`merge_concepts`, `intersect_concepts` and `subtract_concepts` hit the
direct dict indexing of the link target and raise `KeyError` (`none`)
instead of returning a freshly constructed concept, refuting the claim as
stated for every pair of concepts. -/
theorem manipulations_raise_on_dangling :
    merge_concepts c8Dang c8Plain "M" 100 = none ∧
    intersect_concepts c8Dang c8Dang "I" 200 = none ∧
    subtract_concepts c8Dang c8Plain "S" 300 = none := by decide

/-- C8 amended: `compare_concepts(a, b)` mutates neither concept and returns
`None` with an empty relation delta; `merge_concepts`, `intersect_concepts`
and `subtract_concepts` never mutate their inputs and, whenever they return
at all, return a freshly constructed concept — and they do return whenever
every link of the inputs resolves (both inputs for merge; concept a for
intersect and subtract, whose loops only index a's links), while a dangling
link target makes them raise `KeyError` instead of returning. -/
theorem manipulations_pure_and_fresh (a b : Concept) (nm ni ns : String)
    (f g k : Uuid) :
    ((compare_concepts a b).aAfter = a ∧ (compare_concepts a b).bAfter = b ∧
      (compare_concepts a b).result = none ∧
      (compare_concepts a b).delta = { added := [], removed := [] }) ∧
    (∀ r, merge_concepts a b nm f = some r →
      r.aAfter = a ∧ r.bAfter = b ∧ ∃ c, r.result = some c) ∧
    (∀ r, intersect_concepts a b ni g = some r →
      r.aAfter = a ∧ r.bAfter = b ∧ ∃ c, r.result = some c) ∧
    (∀ r, subtract_concepts a b ns k = some r →
      r.aAfter = a ∧ r.bAfter = b ∧ ∃ c, r.result = some c) ∧
    (LinksResolvable a → LinksResolvable b → ∃ r, merge_concepts a b nm f = some r) ∧
    (LinksResolvable a → ∃ r, intersect_concepts a b ni g = some r) ∧
    (LinksResolvable a → ∃ r, subtract_concepts a b ns k = some r) :=
  ⟨⟨rfl, rfl, rfl, rfl⟩,
   fun r hr => merge_concepts_frame a b nm f r hr,
   fun r hr => intersect_concepts_frame a b ni g r hr,
   fun r hr => subtract_concepts_frame a b ns k r hr,
   fun ha hb => merge_concepts_some a b nm f ha hb,
   fun ha => intersect_concepts_some a b ni g ha,
   fun ha => subtract_concepts_some a b ns k ha⟩

/-- Concept with an internal (resolving) link for the C8 witness. -/
def c8W1 : Concept :=
  { mkConcept 70 "P" "" [] (1 / 4) (3 / 20) with
    ensembles_by_id :=
      [(1, { mkFeatureEnsemble 1 "u" "m" [1] "" with links := [(2, 3)] }),
       (2, mkFeatureEnsemble 2 "v" "m" [2] "")],
    ensembles_by_name := [("u", 1), ("v", 2)] }

/-- Empty partner concept for the C8 witness. -/
def c8W2 : Concept := mkConcept 71 "Q" "" [] (1 / 4) (3 / 20)

/-- Witness for the amended C8 at concrete dangling-free concepts. -/
theorem manipulations_pure_and_fresh_witness :
    LinksResolvable c8W1 ∧ LinksResolvable c8W2 ∧
    (∃ r, merge_concepts c8W1 c8W2 "M" 80 = some r ∧
      r.aAfter = c8W1 ∧ r.bAfter = c8W2 ∧ ∃ c, r.result = some c) ∧
    (∃ r, intersect_concepts c8W1 c8W2 "I" 90 = some r ∧
      r.aAfter = c8W1 ∧ r.bAfter = c8W2 ∧ ∃ c, r.result = some c) ∧
    (∃ r, subtract_concepts c8W1 c8W2 "S" 95 = some r ∧
      r.aAfter = c8W1 ∧ r.bAfter = c8W2 ∧ ∃ c, r.result = some c) := by
  have h := manipulations_pure_and_fresh c8W1 c8W2 "M" "I" "S" 80 90 95
  have h1 : LinksResolvable c8W1 := by decide
  have h2 : LinksResolvable c8W2 := by decide
  refine ⟨h1, h2, ?_, ?_, ?_⟩
  · obtain ⟨r, hr⟩ := h.2.2.2.2.1 h1 h2
    exact ⟨r, hr, h.2.1 r hr⟩
  · obtain ⟨r, hr⟩ := h.2.2.2.2.2.1 h1
    exact ⟨r, hr, h.2.2.1 r hr⟩
  · obtain ⟨r, hr⟩ := h.2.2.2.2.2.2 h1
    exact ⟨r, hr, h.2.2.2.1 r hr⟩

/-! ## Claim C9 -/

theorem list_relations_add (c : Concept) (rt : String) (tid : Uuid) (ds : String) :
    list_relations (c.add_relationship rt tid ds) = list_relations c ++ [(rt, tid, ds)] := by
  simp [list_relations, Concept.add_relationship]

theorem filter_not_mem_superset {xs ys : List RelTuple}
    (h : ∀ x ∈ xs, x ∈ ys) : xs.filter (fun x => decide (x ∉ ys)) = [] := by
  rw [List.filter_eq_nil_iff]
  intro a ha
  simpa using h a ha

/-- C9: when concept A already contains an edge with exactly the same
`(relation_type, target_concept_id, description)` triple, `bind_relation`
still appends the duplicate edge (the relationship list grows by one) while
the returned set-based delta has empty `added` and `removed` lists. -/
theorem bind_relation_duplicate_edge (a b : Concept) (rt ds : String)
    (hdup : (rt, b.concept_id, ds) ∈ list_relations a) :
    (bind_relation a b rt ds).aAfter.relationships.length
        = a.relationships.length + 1 ∧
    (bind_relation a b rt ds).delta = { added := [], removed := [] } := by
  constructor
  · simp [bind_relation, Concept.add_relationship]
  · have hafter : list_relations (a.add_relationship rt b.concept_id ds)
        = list_relations a ++ [(rt, b.concept_id, ds)] := list_relations_add ..
    have hadded : pySetDiff (list_relations a ++ [(rt, b.concept_id, ds)])
        (list_relations a) = [] := by
      unfold pySetDiff
      rw [filter_not_mem_superset, List.dedup_nil]
      intro x hx
      rcases List.mem_append.mp hx with h₁ | h₂
      · exact h₁
      · simpa using (List.mem_singleton.mp h₂) ▸ hdup
    have hremoved : pySetDiff (list_relations a)
        (list_relations a ++ [(rt, b.concept_id, ds)]) = [] := by
      unfold pySetDiff
      rw [filter_not_mem_superset, List.dedup_nil]
      intro x hx
      exact List.mem_append.mpr (Or.inl hx)
    simp only [bind_relation, diff_relations, hafter, hadded, hremoved]
    rfl

/-- Concrete instance for C9: a concept that already holds the edge
`("IS_A", target 7, "kind")`. -/
def c9A : Concept :=
  (mkConcept 0 "A" "" [] (1 / 4) (3 / 20)).add_relationship "IS_A" 7 "kind"

/-- Concrete partner whose id is the duplicate edge's target. -/
def c9B : Concept := mkConcept 7 "B" "" [] (1 / 4) (3 / 20)

theorem bind_relation_duplicate_edge_witness :
    (bind_relation c9A c9B "IS_A" "kind").aAfter.relationships.length
        = c9A.relationships.length + 1 ∧
    (bind_relation c9A c9B "IS_A" "kind").delta = { added := [], removed := [] } :=
  bind_relation_duplicate_edge c9A c9B "IS_A" "kind" (by decide)

/-! ## Claim C2 -/

/-- A concept holding one ensemble (id 0) with positive activation and a
link whose target id 99 is not present in the identity map. -/
def danglingConcept : Concept :=
  { mkConcept 3 "D" "" [] (1 / 4) (3 / 20) with
    ensembles_by_id :=
      [(0, { mkFeatureEnsemble 0 "e" "sem" [1] "" with
             activation := 1, links := [(99, 1)] })],
    ensembles_by_name := [("e", 0)] }

/-- C2 (code bug exhibit): `Concept.stimulate` does fail on a dangling link
target.  The delta map picks up key 99 through `delta.get(t_id, 0.0)`, and
the application loop `self.ensembles_by_id[t_id].activation += d` then
raises `KeyError` (modelled as `none`), contradicting the requirement that a
dangling link be treated as absent. -/
theorem stimulate_keyerror_on_dangling_link :
    Concept.stimulate (fun _ _ => 0) danglingConcept [] 1 = none := by decide

/-! ## Claim C1 -/

/-- Concept A for the merge test: one ensemble named `p`. -/
def c1A : Concept :=
  (mkConcept 0 "A" "" [] (1 / 4) (3 / 20)).add_ensemble
    (mkFeatureEnsemble 1 "p" "sem" [1] "")

/-- B-side ensemble `x` (id 10) with a link of weight 2 to `y` (id 11). -/
def c1Bx : FeatureEnsemble :=
  { mkFeatureEnsemble 10 "x" "sem" [1] "" with links := [(11, 2)] }

/-- Concept B for the merge test: ensembles `x` and `y`, neither name
colliding with A, and one intra-B link x→y of weight 1/2. -/
def c1B : Concept :=
  ((mkConcept 5 "B" "" [] (1 / 4) (3 / 20)).add_ensemble c1Bx).add_ensemble
    (mkFeatureEnsemble 11 "y" "sem" [2] "")

/-- C1 (code bug exhibit): B holds the link x→y (weight 2) between two
ensembles whose names do not collide with A, both of which survive into the
merge under their original names; yet the merged concept's `x` ensemble has
no links at all, because `copy_links(b, "__B")` remaps through names
suffixed unconditionally with `__B` while non-colliding B ensembles were
copied without the suffix. -/
theorem merge_drops_noncolliding_b_links :
    dget? c1Bx.links 11 = some 2 ∧
    c1B.get_ensemble "x" = some c1Bx ∧
    ((c1B.get_ensemble "y").map FeatureEnsemble.ensemble_id = some 11) ∧
    (((merge_concepts c1A c1B "M" 100).bind
        (fun r => r.result.bind (fun c => c.get_ensemble "x"))).map
      FeatureEnsemble.links = some []) ∧
    (((merge_concepts c1A c1B "M" 100).bind
        (fun r => r.result.bind (fun c => c.get_ensemble "y"))).isSome = true) := by
  decide

/-! ## Claim C5 -/

theorem mem_foldl_setInsert (evs : List (String × ℚ)) (acc : List String) (k : String) :
    k ∈ evs.foldl (fun a q => setInsert a q.1) acc ↔ k ∈ acc ∨ ∃ q ∈ evs, q.1 = k := by
  induction evs generalizing acc with
  | nil => simp
  | cons q rest ih =>
    rw [List.foldl_cons, ih]
    rw [mem_setInsert]
    constructor
    · rintro (⟨h | h⟩ | ⟨q₂, hq₂, hk⟩)
      · exact Or.inl h
      · exact Or.inr ⟨q, List.mem_cons_self _ _, h.symm⟩
      · exact Or.inr ⟨q₂, List.mem_cons_of_mem _ hq₂, hk⟩
    · rintro (h | ⟨q₂, hq₂, hk⟩)
      · exact Or.inl (Or.inl h)
      · rcases List.mem_cons.mp hq₂ with h₂ | h₂
        · exact Or.inl (Or.inr (h₂ ▸ hk).symm)
        · exact Or.inr ⟨q₂, h₂, hk⟩

theorem mem_fireWindow_aux (sched : List (ℚ × List (String × ℚ)))
    (t0 t1 : ℚ) (acc : List String) (k : String) :
    k ∈ sched.foldl
        (fun acc p =>
          if t0 < p.1 ∧ p.1 ≤ t1 then p.2.foldl (fun a q => setInsert a q.1) acc else acc)
        acc ↔
      k ∈ acc ∨ ∃ p ∈ sched, (t0 < p.1 ∧ p.1 ≤ t1) ∧ ∃ q ∈ p.2, q.1 = k := by
  induction sched generalizing acc with
  | nil => simp
  | cons p rest ih =>
    rw [List.foldl_cons]
    by_cases hp : t0 < p.1 ∧ p.1 ≤ t1
    · rw [if_pos hp, ih, mem_foldl_setInsert]
      constructor
      · rintro (⟨h | ⟨q, hq, hk⟩⟩ | ⟨p₂, hp₂, hw, he⟩)
        · exact Or.inl h
        · exact Or.inr ⟨p, List.mem_cons_self _ _, hp, q, hq, hk⟩
        · exact Or.inr ⟨p₂, List.mem_cons_of_mem _ hp₂, hw, he⟩
      · rintro (h | ⟨p₂, hp₂, hw, he⟩)
        · exact Or.inl (Or.inl h)
        · rcases List.mem_cons.mp hp₂ with h₂ | h₂
          · subst h₂; exact Or.inl (Or.inr he)
          · exact Or.inr ⟨p₂, h₂, hw, he⟩
    · rw [if_neg hp, ih]
      constructor
      · rintro (h | ⟨p₂, hp₂, hw, he⟩)
        · exact Or.inl h
        · exact Or.inr ⟨p₂, List.mem_cons_of_mem _ hp₂, hw, he⟩
      · rintro (h | ⟨p₂, hp₂, hw, he⟩)
        · exact Or.inl h
        · rcases List.mem_cons.mp hp₂ with h₂ | h₂
          · exact absurd (h₂ ▸ hw) hp
          · exact Or.inr ⟨p₂, h₂, hw, he⟩

theorem mem_fireWindow (t0 t1 : ℚ) (sched : List (ℚ × List (String × ℚ))) (k : String) :
    k ∈ fireWindow t0 t1 sched ↔
      ∃ p ∈ sched, (t0 < p.1 ∧ p.1 ≤ t1) ∧ ∃ q ∈ p.2, q.1 = k := by
  rw [fireWindow, mem_fireWindow_aux]
  simp

/-- The C5 scenario state: spikes for key `x` at t = 0.05 and t = 0.15. -/
def rtC5 : RTState :=
  ((freshRT "E").schedule_spike (1 / 20) "x" 1).schedule_spike (3 / 20) "x" 1

/-- C5: one `activate_step(dt)` from time `t0` fires exactly the scheduled
events with timestamp in `(t0, t0+dt]` (an event at exactly `t0` does not
fire), removes every bucket in that window from the schedule, and advances
time to `t0+dt`; concretely, with spikes for `x` at 0.05 and 0.15 and two
steps of dt = 0.1 from t = 0, the first step fires only the 0.05 spike
(0.15 stays scheduled) and the second step fires the 0.15 spike. -/
theorem activate_step_fires_exactly_window :
    (∀ (st : RTState) (dt : ℚ), 0 < dt →
      ((∀ k, k ∈ (st.activate_step (some dt)).1 ↔
          ∃ p ∈ st.scheduled, (st.t < p.1 ∧ p.1 ≤ st.t + dt) ∧ ∃ q ∈ p.2, q.1 = k) ∧
       (∀ p, p ∈ (st.activate_step (some dt)).2.scheduled ↔
          p ∈ st.scheduled ∧ ¬(st.t < p.1 ∧ p.1 ≤ st.t + dt)) ∧
       (st.activate_step (some dt)).2.t = st.t + dt)) ∧
    ((rtC5.activate_step (some (1 / 10))).1 = ["x"] ∧
     (rtC5.activate_step (some (1 / 10))).2.scheduled = [(3 / 20, [("x", 1)])] ∧
     ((rtC5.activate_step (some (1 / 10))).2.activate_step (some (1 / 10))).1 = ["x"] ∧
     ((rtC5.activate_step (some (1 / 10))).2.activate_step (some (1 / 10))).2.scheduled
        = []) := by
  constructor
  · intro st dt _
    refine ⟨fun k => ?_, fun p => ?_, rfl⟩
    · simpa [RTState.activate_step] using
        mem_fireWindow st.t (st.t + dt) st.scheduled k
    · simp only [RTState.activate_step, List.mem_filter, decide_eq_true_iff]
      constructor
      · rintro ⟨hm, hcond⟩; exact ⟨hm, hcond⟩
      · rintro ⟨hm, hcond⟩; exact ⟨hm, hcond⟩
  · norm_num [rtC5, freshRT, RTState.schedule_spike, RTState.activate_step,
      fireWindow, setInsert, decayPrune, hebbPhase, pairsOf, dget?, dset]

/-- Witness for C5 at the concrete scenario state. -/
theorem activate_step_fires_exactly_window_witness :
    (0 : ℚ) < 1 / 10 ∧ (rtC5.activate_step (some (1 / 10))).2.t = rtC5.t + 1 / 10 :=
  ⟨by norm_num,
   (activate_step_fires_exactly_window.1 rtC5 (1 / 10) (by norm_num)).2.2⟩

/-! ## Claim C7 -/

theorem decayPrune_cons (k₁ : String × String) (v₁ : ℚ)
    (rest : List ((String × String) × ℚ)) (d : ℚ) :
    decayPrune ((k₁, v₁) :: rest) d =
      if 1 / 1000000 ≤ |v₁ * d| then (k₁, v₁ * d) :: decayPrune rest d
      else decayPrune rest d := by
  by_cases h : 1 / 1000000 ≤ |v₁ * d| <;> simp [decayPrune, List.filter_cons, h]

theorem dkeys_decayPrune_subset (w : List ((String × String) × ℚ)) (d : ℚ)
    (k : String × String) (h : k ∈ dkeys (decayPrune w d)) : k ∈ dkeys w := by
  induction w with
  | nil => simp [decayPrune] at h
  | cons p rest ih =>
    obtain ⟨k₁, v₁⟩ := p
    rw [decayPrune_cons] at h
    by_cases hc : 1 / 1000000 ≤ |v₁ * d|
    · rw [if_pos hc] at h
      rcases List.mem_cons.mp h with h₁ | h₂
      · simp [h₁]
      · exact List.mem_cons_of_mem _ (ih h₂)
    · rw [if_neg hc] at h
      exact List.mem_cons_of_mem _ (ih h)

theorem dget?_decayPrune (w : List ((String × String) × ℚ)) (d : ℚ)
    (hnd : (dkeys w).Nodup) (k : String × String) :
    dget? (decayPrune w d) k =
      match dget? w k with
      | none => none
      | some v => if 1 / 1000000 ≤ |v * d| then some (v * d) else none := by
  induction w with
  | nil => rfl
  | cons p rest ih =>
    obtain ⟨k₁, v₁⟩ := p
    obtain ⟨hk₁, hrest⟩ := List.nodup_cons.mp (by simpa using hnd)
    rw [decayPrune_cons]
    by_cases hk : k₁ = k
    · subst hk
      have hget : dget? ((k₁, v₁) :: rest) k₁ = some v₁ := by simp [dget?]
      rw [hget]
      have hnone : dget? (decayPrune rest d) k₁ = none :=
        dget?_eq_none_of_not_mem _ _ (fun hm => hk₁ (dkeys_decayPrune_subset rest d k₁ hm))
      by_cases hc : 1 / 1000000 ≤ |v₁ * d|
      · rw [if_pos hc]
        show dget? ((k₁, v₁ * d) :: decayPrune rest d) k₁ =
          if 1 / 1000000 ≤ |v₁ * d| then some (v₁ * d) else none
        rw [if_pos hc]
        simp [dget?]
      · rw [if_neg hc]
        show dget? (decayPrune rest d) k₁ =
          if 1 / 1000000 ≤ |v₁ * d| then some (v₁ * d) else none
        rw [if_neg hc, hnone]
    · have hget : dget? ((k₁, v₁) :: rest) k = dget? rest k := by simp [dget?, hk]
      rw [hget]
      by_cases hc : 1 / 1000000 ≤ |v₁ * d|
      · rw [if_pos hc]
        have hstep : dget? ((k₁, v₁ * d) :: decayPrune rest d) k
            = dget? (decayPrune rest d) k := by simp [dget?, hk]
        rw [hstep]
        exact ih hrest
      · rw [if_neg hc]
        exact ih hrest

theorem hebbPhase_cons (st : RTState) (w : List ((String × String) × ℚ))
    (p : String × String) (rest : List (String × String)) :
    hebbPhase st w (p :: rest) =
      hebbPhase st
        (dset w (canonKey p.1 p.2)
          (min ((dget? w (canonKey p.1 p.2)).getD 0 + st.hebb_increment p.1 p.2)
            st.max_weight))
        rest := rfl

theorem hebbPhase_not_mem (st : RTState) (pairs : List (String × String))
    (w : List ((String × String) × ℚ)) (k : String × String)
    (h : k ∉ pairs.map (fun p => canonKey p.1 p.2)) :
    dget? (hebbPhase st w pairs) k = dget? w k := by
  induction pairs generalizing w with
  | nil => rfl
  | cons p rest ih =>
    simp only [List.map_cons, List.mem_cons] at h
    push_neg at h
    rw [hebbPhase_cons, ih _ h.2, dget?_dset_ne]
    exact fun hh => h.1 hh.symm

theorem hebbPhase_capped (st : RTState) (pairs : List (String × String))
    (w : List ((String × String) × ℚ)) (k : String × String)
    (h : k ∈ pairs.map (fun p => canonKey p.1 p.2)) :
    ∀ v, dget? (hebbPhase st w pairs) k = some v → v ≤ st.max_weight := by
  induction pairs generalizing w with
  | nil => simp at h
  | cons p rest ih =>
    intro v hv
    by_cases hr : k ∈ rest.map (fun p => canonKey p.1 p.2)
    · exact ih _ hr v hv
    · have hk : k = canonKey p.1 p.2 := by
        simp only [List.map_cons, List.mem_cons] at h
        rcases h with h₁ | h₂
        · exact h₁
        · exact absurd h₂ hr
      rw [hebbPhase_cons, hebbPhase_not_mem st rest _ k hr, hk, dget?_dset_self] at hv
      have : min ((dget? w (canonKey p.1 p.2)).getD 0 + st.hebb_increment p.1 p.2)
          st.max_weight = v := by injection hv
      exact this ▸ min_le_right _ _

/-- The second projection of `activate_step` carries exactly the
decay-pruned weights, Hebb-updated when anything fired. -/
theorem activate_step_weights_eq (st : RTState) (dtArg : Option ℚ) :
    (st.activate_step dtArg).2.weights =
      (if (st.activate_step dtArg).1.isEmpty then decayPrune st.weights st.decay
       else hebbPhase st (decayPrune st.weights st.decay)
              (pairsOf (st.activate_step dtArg).1)) := rfl

/-- The C7 pruning scenario: a single pairwise weight of 2e-6 with decay
factor 0.4 and nothing scheduled. -/
def rtC7 : RTState :=
  { freshRT "W" with weights := [(("a", "b"), 1 / 500000)], decay := 2 / 5 }

/-- C7: in every `activate_step` call, each existing pairwise weight is
first multiplied by the decay factor, entries whose magnitude then falls
below 1e-6 are removed (and stay absent from the final map unless their pair
co-fired in this very step), and every weight written by the Hebbian update
of a co-fired pair ends the step at most `max_weight`; concretely a weight
of 2e-6 with decay 0.4 is gone after one step. -/
theorem activate_step_decay_prune_cap :
    (∀ (st : RTState) (dtArg : Option ℚ),
      ((dkeys st.weights).Nodup →
        ∀ k v, dget? st.weights k = some v →
          dget? (decayPrune st.weights st.decay) k =
            (if 1 / 1000000 ≤ |v * st.decay| then some (v * st.decay) else none)) ∧
      ((dkeys st.weights).Nodup →
        ∀ k v, dget? st.weights k = some v → |v * st.decay| < 1 / 1000000 →
          k ∉ (pairsOf (st.activate_step dtArg).1).map (fun p => canonKey p.1 p.2) →
          dget? (st.activate_step dtArg).2.weights k = none) ∧
      (∀ k, k ∈ (pairsOf (st.activate_step dtArg).1).map (fun p => canonKey p.1 p.2) →
        ∀ v, dget? (st.activate_step dtArg).2.weights k = some v →
          v ≤ st.max_weight)) ∧
    (rtC7.activate_step (some 1)).2.weights = [] := by
  constructor
  · intro st dtArg
    refine ⟨?_, ?_, ?_⟩
    · intro hnd k v hv
      rw [dget?_decayPrune st.weights st.decay hnd k, hv]
    · intro hnd k v hv hlt hnm
      have hpruned : dget? (decayPrune st.weights st.decay) k = none := by
        rw [dget?_decayPrune st.weights st.decay hnd k, hv]
        show (if 1 / 1000000 ≤ |v * st.decay| then some (v * st.decay) else none) = none
        rw [if_neg (not_le.mpr hlt)]
      rw [activate_step_weights_eq]
      by_cases hE : (st.activate_step dtArg).1.isEmpty
      · rw [if_pos hE]; exact hpruned
      · rw [if_neg hE, hebbPhase_not_mem _ _ _ _ hnm]; exact hpruned
    · intro k hk v hv
      by_cases hE : (st.activate_step dtArg).1.isEmpty
      · rw [List.isEmpty_iff] at hE
        rw [hE] at hk
        simp [pairsOf] at hk
      · rw [activate_step_weights_eq, if_neg hE] at hv
        exact hebbPhase_capped st _ _ k hk v hv
  · norm_num [rtC7, freshRT, RTState.activate_step, fireWindow, decayPrune,
      List.filter_cons, abs]

/-- Witness for C7: the seeded 2e-6 weight is absent after one step. -/
theorem activate_step_decay_prune_cap_witness :
    dget? ((rtC7.activate_step (some 1)).2.weights) ("a", "b") = none := by
  refine (activate_step_decay_prune_cap.1 rtC7 (some 1)).2.1 ?_ ("a", "b")
    (1 / 500000) ?_ ?_ ?_
  · simp [rtC7, freshRT]
  · norm_num [rtC7, freshRT, dget?]
  · norm_num [rtC7, freshRT, abs]
  · norm_num [rtC7, freshRT, RTState.activate_step, fireWindow, pairsOf]

/-! ## Claim C10 -/

theorem canonKey_comm (a b : String) : canonKey a b = canonKey b a := by
  unfold canonKey
  rcases lt_trichotomy a b with h | h | h
  · rw [if_pos h, if_neg (not_lt.mpr h.le)]
  · subst h; rfl
  · rw [if_neg (not_lt.mpr h.le), if_pos h]

theorem canonKey_lt (a b : String) (h : a ≠ b) :
    (canonKey a b).1 < (canonKey a b).2 := by
  unfold canonKey
  by_cases hab : a < b
  · rw [if_pos hab]; exact hab
  · rw [if_neg hab]
    exact lt_of_le_of_ne (not_lt.mp hab) (fun hh => h hh.symm)

theorem nodup_foldl_setInsert (evs : List (String × ℚ)) (acc : List String)
    (h : acc.Nodup) : (evs.foldl (fun a q => setInsert a q.1) acc).Nodup := by
  induction evs generalizing acc with
  | nil => exact h
  | cons q rest ih => exact ih _ (nodup_setInsert _ _ h)

theorem nodup_fireWindow_aux (sched : List (ℚ × List (String × ℚ)))
    (t0 t1 : ℚ) (acc : List String) (h : acc.Nodup) :
    (sched.foldl
      (fun acc p =>
        if t0 < p.1 ∧ p.1 ≤ t1 then p.2.foldl (fun a q => setInsert a q.1) acc else acc)
      acc).Nodup := by
  induction sched generalizing acc with
  | nil => exact h
  | cons p rest ih =>
    rw [List.foldl_cons]
    by_cases hp : t0 < p.1 ∧ p.1 ≤ t1
    · rw [if_pos hp]; exact ih _ (nodup_foldl_setInsert _ _ h)
    · rw [if_neg hp]; exact ih _ h

theorem nodup_fireWindow (t0 t1 : ℚ) (sched : List (ℚ × List (String × ℚ))) :
    (fireWindow t0 t1 sched).Nodup :=
  nodup_fireWindow_aux sched t0 t1 [] List.nodup_nil

theorem pairsOf_ne {α : Type} (l : List α) (h : l.Nodup) :
    ∀ p ∈ pairsOf l, p.1 ≠ p.2 := by
  induction l with
  | nil => intro p hp; simp [pairsOf] at hp
  | cons x xs ih =>
    intro p hp
    obtain ⟨hx, hxs⟩ := List.nodup_cons.mp h
    have hp₂ : (∃ a ∈ xs, (x, a) = p) ∨ p ∈ pairsOf xs := by simpa [pairsOf] using hp
    rcases hp₂ with ⟨y, hy, hpe⟩ | h₂
    · subst hpe
      intro he
      have he₂ : x = y := he
      exact hx (by rw [he₂]; exact hy)
    · exact ih hxs p h₂

theorem ordered_decayPrune (w : List ((String × String) × ℚ)) (d : ℚ)
    (h : ∀ p ∈ w, p.1.1 < p.1.2) : ∀ p ∈ decayPrune w d, p.1.1 < p.1.2 := by
  intro p hp
  have hk : p.1 ∈ dkeys w :=
    dkeys_decayPrune_subset w d p.1 (List.mem_map_of_mem Prod.fst hp)
  obtain ⟨q, hq, hqk⟩ := List.mem_map.mp hk
  rw [← hqk]
  exact h q hq

theorem ordered_hebbPhase (st : RTState) (pairs : List (String × String))
    (w : List ((String × String) × ℚ)) (hw : ∀ p ∈ w, p.1.1 < p.1.2)
    (hp : ∀ p ∈ pairs, p.1 ≠ p.2) :
    ∀ q ∈ hebbPhase st w pairs, q.1.1 < q.1.2 := by
  induction pairs generalizing w with
  | nil => exact hw
  | cons p rest ih =>
    rw [hebbPhase_cons]
    refine ih _ ?_ (fun q hq => hp q (List.mem_cons_of_mem _ hq))
    intro q hq
    rcases mem_dset _ _ _ q hq with h₁ | h₂
    · rw [h₁]
      exact canonKey_lt p.1 p.2 (hp p (List.mem_cons_self _ _))
    · exact hw q h₂

theorem weightsOrdered_iff (st : RTState) :
    weightsOrdered st = true ↔ ∀ p ∈ st.weights, p.1.1 < p.1.2 := by
  simp [weightsOrdered, List.all_eq_true]

theorem schedule_pattern_weights (st : RTState) (sps : List (ℚ × String × ℚ)) :
    (st.schedule_pattern sps).weights = st.weights := by
  unfold RTState.schedule_pattern
  induction sps generalizing st with
  | nil => rfl
  | cons s rest ih => exact ih _

/-- C10: in every RT state reachable from a fresh ensemble by `add_units`,
`schedule_spike`, `schedule_pattern` and `activate_step`, every key of the
pairwise weight map is an ordered pair (first component strictly below the
second under string ordering) — in particular no self-pair exists — and the
key canonicalization maps `(a, b)` and `(b, a)` to the same single entry. -/
theorem rt_weight_keys_ordered (st : RTState) (h : RTReach st) :
    weightsOrdered st = true ∧ ∀ a b, canonKey a b = canonKey b a := by
  refine ⟨?_, fun a b => canonKey_comm a b⟩
  rw [weightsOrdered_iff]
  induction h with
  | init name => intro p hp; simp [freshRT] at hp
  | add_units st ks hst ih => exact ih
  | spike st t k s hst ih => exact ih
  | pattern st sps hst ih =>
    rw [schedule_pattern_weights]
    exact ih
  | step st dtArg hst ih =>
    rw [activate_step_weights_eq]
    by_cases hE : (st.activate_step dtArg).1.isEmpty
    · rw [if_pos hE]
      exact ordered_decayPrune st.weights st.decay ih
    · rw [if_neg hE]
      exact ordered_hebbPhase st _ _ (ordered_decayPrune st.weights st.decay ih)
        (pairsOf_ne _ (nodup_fireWindow _ _ _))

/-- A concrete reachable state whose weight map is nonempty: two spikes in
the same window create the canonical pair ("a", "b"). -/
def rtC10 : RTState :=
  (((freshRT "E").schedule_pattern
      [(1 / 20, "b", 1), (1 / 20, "a", 1)]).activate_step (some (1 / 10))).2

/-- Witness for C10 at the concrete reachable state (and a concrete
canonicalization instance). -/
theorem rt_weight_keys_ordered_witness :
    weightsOrdered rtC10 = true ∧ canonKey "q" "p" = canonKey "p" "q" := by
  have h := rt_weight_keys_ordered rtC10
    (RTReach.step _ _ (RTReach.pattern _ _ (RTReach.init "E")))
  exact ⟨h.1, h.2 "q" "p"⟩

/-! ## Claim C6 -/

/-- Total link weight carried by a link dict toward target `t` (summing all
entries with that key; a Python dict holds at most one). -/
def linkSumList (links : List (Uuid × ℚ)) (t : Uuid) : ℚ :=
  ((links.filter (fun q => decide (q.1 = t))).map Prod.snd).sum

/-- The specified one-hop-spread delta for target `t`: the sum over all
sources with strictly positive activation of
`source.activation * link_weight(source→t)`. -/
def spreadContribution (es : List (Uuid × FeatureEnsemble)) (t : Uuid) : ℚ :=
  (es.map (fun p =>
    if 0 < p.2.activation then p.2.activation * (dget? p.2.links t).getD 0 else 0)).sum

/-- As `spreadContribution` but with the multi-entry link sum, matching the
accumulation loop literally. -/
def spreadContributionL (es : List (Uuid × FeatureEnsemble)) (t : Uuid) : ℚ :=
  (es.map (fun p =>
    if p.2.activation ≤ 0 then 0 else p.2.activation * linkSumList p.2.links t)).sum

theorem linkSumList_nil (t : Uuid) : linkSumList [] t = 0 := rfl

theorem linkSumList_cons (q : Uuid × ℚ) (rest : List (Uuid × ℚ)) (t : Uuid) :
    linkSumList (q :: rest) t =
      (if q.1 = t then q.2 else 0) + linkSumList rest t := by
  by_cases h : q.1 = t <;> simp [linkSumList, List.filter_cons, h]

theorem linkSumList_eq_zero_of_not_mem (links : List (Uuid × ℚ)) (t : Uuid)
    (h : t ∉ dkeys links) : linkSumList links t = 0 := by
  induction links with
  | nil => rfl
  | cons q rest ih =>
    simp only [dkeys_cons, List.mem_cons] at h
    push_neg at h
    rw [linkSumList_cons, if_neg (fun hh => h.1 hh.symm), ih h.2, add_zero]

theorem linkSumList_eq_dget (links : List (Uuid × ℚ)) (t : Uuid)
    (h : (dkeys links).Nodup) : linkSumList links t = (dget? links t).getD 0 := by
  induction links with
  | nil => rfl
  | cons q rest ih =>
    obtain ⟨hq, hrest⟩ := List.nodup_cons.mp (by simpa using h)
    rw [linkSumList_cons]
    by_cases hqt : q.1 = t
    · rw [if_pos hqt, ← hqt]
      rw [linkSumList_eq_zero_of_not_mem rest q.1 hq, add_zero]
      have : dget? ((q.1, q.2) :: rest) q.1 = some q.2 := by simp [dget?]
      simp [this]
    · rw [if_neg hqt, zero_add, ih hrest]
      have : dget? (q :: rest) t = dget? rest t := by
        obtain ⟨k₁, v₁⟩ := q
        simp [dget?, hqt]
      rw [this]

theorem valueAt_linkFold (links : List (Uuid × ℚ)) (act : ℚ)
    (d : List (Uuid × ℚ)) (t : Uuid) :
    (dget? (links.foldl
        (fun d q => dset d q.1 ((dget? d q.1).getD 0 + act * q.2)) d) t).getD 0
      = (dget? d t).getD 0 + act * linkSumList links t := by
  induction links generalizing d with
  | nil => simp [linkSumList_nil]
  | cons q rest ih =>
    rw [List.foldl_cons, ih, linkSumList_cons]
    by_cases hqt : q.1 = t
    · rw [dget?_dset, if_pos hqt, if_pos hqt, hqt]
      simp only [Option.getD_some]
      ring
    · rw [dget?_dset, if_neg hqt, if_neg hqt]
      ring

theorem valueAt_init_zero (es : List (Uuid × FeatureEnsemble)) (t : Uuid) :
    (dget? (es.map (fun p => (p.1, (0 : ℚ)))) t).getD 0 = 0 := by
  induction es with
  | nil => rfl
  | cons p rest ih =>
    by_cases h : p.1 = t <;> simp [dget?, h, ih]

theorem valueAt_buildDelta_fold (es₂ : List (Uuid × FeatureEnsemble))
    (d : List (Uuid × ℚ)) (t : Uuid) :
    (dget? (es₂.foldl
        (fun d p =>
          if p.2.activation ≤ 0 then d
          else p.2.links.foldl
            (fun d q => dset d q.1 ((dget? d q.1).getD 0 + p.2.activation * q.2)) d)
        d) t).getD 0
      = (dget? d t).getD 0 + spreadContributionL es₂ t := by
  induction es₂ generalizing d with
  | nil => simp [spreadContributionL]
  | cons p rest ih =>
    rw [List.foldl_cons]
    by_cases hp : p.2.activation ≤ 0
    · rw [if_pos hp, ih]
      simp [spreadContributionL, hp]
    · rw [if_neg hp, ih, valueAt_linkFold]
      simp only [spreadContributionL, List.map_cons, List.sum_cons, if_neg hp]
      ring

theorem valueAt_buildDelta (es : List (Uuid × FeatureEnsemble)) (t : Uuid) :
    (dget? (Concept.buildDelta es) t).getD 0 = spreadContributionL es t := by
  rw [Concept.buildDelta, valueAt_buildDelta_fold, valueAt_init_zero, zero_add]

theorem spreadContributionL_eq (es : List (Uuid × FeatureEnsemble)) (t : Uuid)
    (h : ∀ p ∈ es, (dkeys p.2.links).Nodup) :
    spreadContributionL es t = spreadContribution es t := by
  unfold spreadContributionL spreadContribution
  congr 1
  apply List.map_congr_left
  intro p hp
  rw [linkSumList_eq_dget p.2.links t (h p hp)]
  by_cases hact : p.2.activation ≤ 0
  · rw [if_pos hact, if_neg (not_lt.mpr hact)]
  · rw [if_neg hact, if_pos (not_le.mp hact)]

theorem mem_dkeys_linkFold (links : List (Uuid × ℚ)) (act : ℚ)
    (d : List (Uuid × ℚ)) (t : Uuid) (h : t ∈ dkeys d) :
    t ∈ dkeys (links.foldl
      (fun d q => dset d q.1 ((dget? d q.1).getD 0 + act * q.2)) d) := by
  induction links generalizing d with
  | nil => exact h
  | cons q rest ih => exact ih _ (mem_dkeys_dset _ _ _ _ h)

theorem nodup_dkeys_linkFold (links : List (Uuid × ℚ)) (act : ℚ)
    (d : List (Uuid × ℚ)) (h : (dkeys d).Nodup) :
    (dkeys (links.foldl
      (fun d q => dset d q.1 ((dget? d q.1).getD 0 + act * q.2)) d)).Nodup := by
  induction links generalizing d with
  | nil => exact h
  | cons q rest ih => exact ih _ (nodup_dkeys_dset _ _ _ h)

theorem mem_dkeys_buildDelta (es : List (Uuid × FeatureEnsemble)) (t : Uuid)
    (h : t ∈ dkeys es) : t ∈ dkeys (Concept.buildDelta es) := by
  rw [Concept.buildDelta]
  have hinit : t ∈ dkeys (es.map (fun p => (p.1, (0 : ℚ)))) := by
    rw [dkeys_map_keyfix es (fun p => (p.1, (0 : ℚ))) (fun p _ => rfl)]
    exact h
  generalize es.map (fun p => (p.1, (0 : ℚ))) = d at hinit
  clear h
  induction es generalizing d with
  | nil => exact hinit
  | cons p rest ih =>
    rw [List.foldl_cons]
    by_cases hp : p.2.activation ≤ 0
    · rw [if_pos hp]; exact ih _ hinit
    · rw [if_neg hp]; exact ih _ (mem_dkeys_linkFold _ _ _ _ hinit)

theorem nodup_dkeys_buildDelta (es : List (Uuid × FeatureEnsemble))
    (h : (dkeys es).Nodup) : (dkeys (Concept.buildDelta es)).Nodup := by
  rw [Concept.buildDelta]
  have hinit : (dkeys (es.map (fun p => (p.1, (0 : ℚ))))).Nodup := by
    rw [dkeys_map_keyfix es (fun p => (p.1, (0 : ℚ))) (fun p _ => rfl)]
    exact h
  generalize es.map (fun p => (p.1, (0 : ℚ))) = d at hinit
  clear h
  induction es generalizing d with
  | nil => exact hinit
  | cons p rest ih =>
    rw [List.foldl_cons]
    by_cases hp : p.2.activation ≤ 0
    · rw [if_pos hp]; exact ih _ hinit
    · rw [if_neg hp]; exact ih _ (nodup_dkeys_linkFold _ _ _ hinit)

/-- The exact effect of the delta-application loop under success: every
target in the (duplicate-free) delta map gets its delta added once; every
other id is untouched. -/
theorem applyDelta_spec (d : List (Uuid × ℚ))
    (byid byid₂ : List (Uuid × FeatureEnsemble))
    (hsucc : Concept.applyDelta byid d = some byid₂)
    (hnd : (dkeys d).Nodup) (t : Uuid) :
    dget? byid₂ t =
      match dget? d t with
      | some dq => (dget? byid t).map
          (fun e => { e with activation := e.activation + dq })
      | none => dget? byid t := by
  induction d generalizing byid with
  | nil =>
    simp only [Concept.applyDelta, Option.some.injEq] at hsucc
    subst hsucc
    rfl
  | cons p rest ih =>
    obtain ⟨k, dq⟩ := p
    obtain ⟨hk, hrest⟩ := List.nodup_cons.mp (by simpa using hnd)
    simp only [Concept.applyDelta] at hsucc
    cases he : dget? byid k with
    | none => rw [he] at hsucc; exact absurd hsucc (by simp)
    | some e =>
      rw [he] at hsucc
      have hstep := ih (dset byid k { e with activation := e.activation + dq })
        hsucc hrest
      by_cases hkt : k = t
      · subst hkt
        have hnone : dget? rest k = none := dget?_eq_none_of_not_mem _ _ hk
        rw [hstep, hnone]
        have hself : dget? ((k, dq) :: rest) k = some dq := by simp [dget?]
        rw [hself, he, dget?_dset_self]
        rfl
      · have hskip : dget? ((k, dq) :: rest) t = dget? rest t := by
          simp [dget?, hkt]
        rw [hstep, hskip, dget?_dset_ne _ _ _ _ hkt]

/-- C6: under the one-hop spread stage of `stimulate`, every ensemble's
post-spread activation equals its pre-spread activation plus the sum, over
all sources with strictly positive pre-spread activation, of that source's
pre-spread activation times the source→target link weight; and, since the
deltas are computed synchronously from the pre-spread snapshot, the
per-target delta is invariant under any permutation of the ensemble
iteration order. -/
theorem stimulate_spread_synchronous (c c₂ : Concept)
    (hnd : (dkeys c.ensembles_by_id).Nodup)
    (hlinks : ∀ p ∈ c.ensembles_by_id, (dkeys p.2.links).Nodup)
    (hsp : c.spreadStep = some c₂) :
    (∀ t e, dget? c.ensembles_by_id t = some e →
        dget? c₂.ensembles_by_id t =
          some { e with activation :=
                   e.activation + spreadContribution c.ensembles_by_id t }) ∧
    (∀ es, es.Perm c.ensembles_by_id → ∀ t,
        spreadContribution es t = spreadContribution c.ensembles_by_id t) := by
  constructor
  · intro t e he
    unfold Concept.spreadStep at hsp
    cases happ : Concept.applyDelta c.ensembles_by_id
        (Concept.buildDelta c.ensembles_by_id) with
    | none => rw [happ] at hsp; exact absurd hsp (by simp)
    | some byid₂ =>
      rw [happ] at hsp
      have hc₂ : c₂.ensembles_by_id = byid₂ := by
        cases hsp₂ : hsp
        rfl
      have hspec := applyDelta_spec _ _ _ happ (nodup_dkeys_buildDelta _ hnd) t
      have htmem : t ∈ dkeys (Concept.buildDelta c.ensembles_by_id) :=
        mem_dkeys_buildDelta _ _
          ((dget?_isSome_iff_mem _ _).mp (by rw [he]; rfl))
      cases hd : dget? (Concept.buildDelta c.ensembles_by_id) t with
      | none =>
        exact absurd hd (by
          have := (dget?_isSome_iff_mem
            (Concept.buildDelta c.ensembles_by_id) t).mpr htmem
          intro hh
          rw [hh] at this
          exact Bool.noConfusion this)
      | some dq =>
        have hdq : dq = spreadContribution c.ensembles_by_id t := by
          have := valueAt_buildDelta c.ensembles_by_id t
          rw [hd] at this
          simpa [spreadContributionL_eq _ _ hlinks] using this
        rw [hc₂, hspec, hd, he, hdq]
        rfl
  · intro es hperm t
    unfold spreadContribution
    exact List.Perm.sum_eq (hperm.map _)

/-- Source ensemble for the C6 witness: activation 2, link of weight 3 to
ensemble 2. -/
def c6E1 : FeatureEnsemble :=
  { mkFeatureEnsemble 1 "a" "sem" [1] "" with activation := 2, links := [(2, 3)] }

/-- Target ensemble for the C6 witness: activation 1, no links. -/
def c6E2 : FeatureEnsemble :=
  { mkFeatureEnsemble 2 "b" "sem" [1] "" with activation := 1 }

/-- Concrete concept for the C6 witness. -/
def c6C : Concept :=
  { mkConcept 0 "S" "" [] (1 / 4) (3 / 20) with
    ensembles_by_id := [(1, c6E1), (2, c6E2)],
    ensembles_by_name := [("a", 1), ("b", 2)] }

/-- The spread result on `c6C`: ensemble 2 gains 2 * 3 = 6 activation. -/
def c6Res : Concept :=
  { c6C with ensembles_by_id :=
      [(1, { c6E1 with activation := 2 }), (2, { c6E2 with activation := 7 })] }

/-- Witness for C6 at the concrete concept. -/
theorem stimulate_spread_synchronous_witness :
    c6C.spreadStep = some c6Res ∧
    dget? c6Res.ensembles_by_id 2 =
      some { c6E2 with activation :=
               c6E2.activation + spreadContribution c6C.ensembles_by_id 2 } := by
  have hsp : c6C.spreadStep = some c6Res := by
    norm_num [c6C, c6E1, c6E2, c6Res, mkConcept, mkFeatureEnsemble,
      Concept.spreadStep, Concept.buildDelta, Concept.applyDelta, dget?, dset]
  refine ⟨hsp, ?_⟩
  refine (stimulate_spread_synchronous c6C c6Res ?_ ?_ hsp).1 2 c6E2 ?_
  · norm_num [c6C, dkeys]
  · intro p hp
    rcases (by simpa [c6C] using hp :
        p = (1, c6E1) ∨ p = (2, c6E2)) with h | h
    · rw [h]; simp [c6E1, mkFeatureEnsemble, dkeys]
    · rw [h]; simp [c6E2, mkFeatureEnsemble, dkeys]
  · norm_num [c6C, dget?]

/-! ## Claim C3 -/

theorem self_mem_dkeys_dset {α β : Type} [DecidableEq α]
    (d : List (α × β)) (k : α) (v : β) : k ∈ dkeys (dset d k v) := by
  rw [dkeys_dset]
  by_cases h : k ∈ dkeys d <;> simp [h]

theorem directActivation_frame (sim : FeatureEnsemble → List ℚ → ℚ)
    (cues : List (String × List ℚ)) (gain : ℚ) : ∀ c : Concept,
    (Concept.directActivation sim c cues gain).ensembles_by_name
        = c.ensembles_by_name ∧
    dkeys (Concept.directActivation sim c cues gain).ensembles_by_id
        = dkeys c.ensembles_by_id := by
  induction cues with
  | nil => exact fun c => ⟨rfl, rfl⟩
  | cons cue rest ih =>
    intro c
    cases hn : dget? c.ensembles_by_name cue.1 with
    | none =>
      simpa [Concept.directActivation, List.foldl_cons, hn] using ih c
    | some eid =>
      cases he : dget? c.ensembles_by_id eid with
      | none =>
        simpa [Concept.directActivation, List.foldl_cons, hn, he] using ih c
      | some e =>
        have hmem : eid ∈ dkeys c.ensembles_by_id :=
          (dget?_isSome_iff_mem _ _).mp (by rw [he]; rfl)
        have hstep : Concept.directActivation sim c (cue :: rest) gain
            = Concept.directActivation sim
                { c with
                    ensembles_by_id :=
                      dset c.ensembles_by_id eid
                        { e with activation := e.activation + gain * sim e cue.2 } }
                rest gain := by
          simp [Concept.directActivation, List.foldl_cons, hn, he]
        obtain ⟨h₁, h₂⟩ := ih
          { c with
              ensembles_by_id :=
                dset c.ensembles_by_id eid
                  { e with activation := e.activation + gain * sim e cue.2 } }
        rw [hstep]
        refine ⟨h₁, ?_⟩
        rw [h₂]
        exact dkeys_dset_of_mem _ _ _ hmem

theorem applyDelta_dkeys (d : List (Uuid × ℚ))
    (byid byid₂ : List (Uuid × FeatureEnsemble))
    (hsucc : Concept.applyDelta byid d = some byid₂) :
    dkeys byid₂ = dkeys byid := by
  induction d generalizing byid with
  | nil =>
    simp only [Concept.applyDelta, Option.some.injEq] at hsucc
    rw [hsucc]
  | cons p rest ih =>
    obtain ⟨k, dq⟩ := p
    simp only [Concept.applyDelta] at hsucc
    cases he : dget? byid k with
    | none => rw [he] at hsucc; exact absurd hsucc (by simp)
    | some e =>
      rw [he] at hsucc
      have hmem : k ∈ dkeys byid := (dget?_isSome_iff_mem _ _).mp (by rw [he]; rfl)
      rw [ih _ hsucc, dkeys_dset_of_mem _ _ _ hmem]

theorem spreadStep_frame (c c₂ : Concept) (hsp : c.spreadStep = some c₂) :
    c₂.ensembles_by_name = c.ensembles_by_name ∧
    dkeys c₂.ensembles_by_id = dkeys c.ensembles_by_id := by
  unfold Concept.spreadStep at hsp
  cases happ : Concept.applyDelta c.ensembles_by_id
      (Concept.buildDelta c.ensembles_by_id) with
  | none => rw [happ] at hsp; exact absurd hsp (by simp)
  | some byid₂ =>
    rw [happ] at hsp
    cases hsp
    exact ⟨rfl, applyDelta_dkeys _ _ _ happ⟩

theorem lateral_inhibition_frame (c : Concept) :
    c.lateral_inhibition.ensembles_by_name = c.ensembles_by_name ∧
    dkeys c.lateral_inhibition.ensembles_by_id = dkeys c.ensembles_by_id := by
  unfold Concept.lateral_inhibition
  by_cases h : (c.ensembles_by_id.map (fun p => max 0 p.2.activation)).sum
      ≤ 1 / 1000000000
  · rw [if_pos h]; exact ⟨rfl, rfl⟩
  · rw [if_neg h]
    exact ⟨rfl, dkeys_map_keyfix _ _ (fun p _ => rfl)⟩

theorem stimulate_frame (sim : FeatureEnsemble → List ℚ → ℚ) (c c₂ : Concept)
    (cues : List (String × List ℚ)) (gain : ℚ)
    (hst : Concept.stimulate sim c cues gain = some c₂) :
    c₂.ensembles_by_name = c.ensembles_by_name ∧
    dkeys c₂.ensembles_by_id = dkeys c.ensembles_by_id := by
  unfold Concept.stimulate at hst
  cases hsp : (Concept.directActivation sim c cues gain).spreadStep with
  | none => rw [hsp] at hst; exact absurd hst (by simp)
  | some c₃ =>
    rw [hsp] at hst
    cases hst
    obtain ⟨h₁, h₂⟩ := spreadStep_frame _ _ hsp
    obtain ⟨h₃, h₄⟩ := directActivation_frame sim cues gain c
    obtain ⟨h₅, h₆⟩ := lateral_inhibition_frame c₃
    exact ⟨by rw [h₅, h₁, h₃], by rw [h₆, h₂, h₄]⟩

theorem learn_hebbian_frame (c : Concept) (lr : ℚ) (minAct : Option ℚ) :
    (c.learn_hebbian lr minAct).ensembles_by_name = c.ensembles_by_name ∧
    dkeys (c.learn_hebbian lr minAct).ensembles_by_id = dkeys c.ensembles_by_id := by
  refine ⟨rfl, ?_⟩
  unfold Concept.learn_hebbian
  apply dkeys_map_keyfix
  intro p _
  by_cases h : (minAct.getD c.activation_threshold) ≤ p.2.activation
  · rw [if_pos h]
  · rw [if_neg h]

theorem decay_all_frame (c : Concept) (f : ℚ) :
    (c.decay_all f).ensembles_by_name = c.ensembles_by_name ∧
    dkeys (c.decay_all f).ensembles_by_id = dkeys c.ensembles_by_id :=
  ⟨rfl, dkeys_map_keyfix _ _ (fun _ _ => rfl)⟩

/-- Direction 1 of the index agreement, as a Prop. -/
def NInvP (c : Concept) : Prop :=
  ∀ p ∈ c.ensembles_by_name, p.2 ∈ dkeys c.ensembles_by_id

/-- Direction 2 of the index agreement, as a Prop. -/
def CInvP (c : Concept) : Prop :=
  ∀ k ∈ dkeys c.ensembles_by_id, ∃ q ∈ c.ensembles_by_name, q.2 = k

theorem namesOk_iff (c : Concept) : namesOk c = true ↔ NInvP c := by
  unfold namesOk NInvP
  rw [List.all_eq_true]
  constructor
  · intro h p hp
    exact (dget?_isSome_iff_mem _ _).mp (h p hp)
  · intro h p hp
    exact (dget?_isSome_iff_mem _ _).mpr (h p hp)

theorem idsCovered_iff (c : Concept) : idsCovered c = true ↔ CInvP c := by
  unfold idsCovered CInvP
  rw [List.all_eq_true]
  constructor
  · intro h k hk
    obtain ⟨p, hp, hpk⟩ := List.mem_map.mp hk
    obtain ⟨q, hq, hqe⟩ := List.any_eq_true.mp (h p hp)
    exact ⟨q, hq, hpk ▸ (by simpa using hqe)⟩
  · intro h p hp
    obtain ⟨q, hq, hqe⟩ := h p.1 (List.mem_map_of_mem Prod.fst hp)
    exact List.any_eq_true.mpr ⟨q, hq, by simpa using hqe⟩

theorem add_ensemble_NInvP (c : Concept) (e : FeatureEnsemble) (h : NInvP c) :
    NInvP (c.add_ensemble e) := by
  intro p hp
  rcases mem_dset _ _ _ p hp with h₁ | h₂
  · rw [h₁]
    exact self_mem_dkeys_dset _ _ _
  · exact mem_dkeys_dset _ _ _ _ (h p h₂)

theorem add_ensemble_CInvP (c : Concept) (e : FeatureEnsemble) (h : CInvP c)
    (hfresh : dget? c.ensembles_by_name e.name = none) :
    CInvP (c.add_ensemble e) := by
  intro k hk
  have hname : e.name ∉ dkeys c.ensembles_by_name := by
    intro hm
    have := (dget?_isSome_iff_mem c.ensembles_by_name e.name).mpr hm
    rw [hfresh] at this
    exact Bool.noConfusion this
  have hbn : (c.add_ensemble e).ensembles_by_name
      = c.ensembles_by_name ++ [(e.name, e.ensemble_id)] :=
    dset_eq_append_of_not_mem _ _ _ hname
  rw [show dkeys (c.add_ensemble e).ensembles_by_id
      = dkeys (dset c.ensembles_by_id e.ensemble_id e) from rfl, dkeys_dset] at hk
  by_cases hm : e.ensemble_id ∈ dkeys c.ensembles_by_id
  · rw [if_pos hm] at hk
    obtain ⟨q, hq, hqk⟩ := h k hk
    exact ⟨q, by rw [hbn]; exact List.mem_append_left _ hq, hqk⟩
  · rw [if_neg hm] at hk
    rcases List.mem_append.mp hk with h₁ | h₂
    · obtain ⟨q, hq, hqk⟩ := h k h₁
      exact ⟨q, by rw [hbn]; exact List.mem_append_left _ hq, hqk⟩
    · refine ⟨(e.name, e.ensemble_id), ?_, ?_⟩
      · rw [hbn]
        exact List.mem_append_right _ (List.mem_singleton.mpr rfl)
      · simpa using (List.mem_singleton.mp h₂).symm

theorem NInvP_of_frame (c c₂ : Concept)
    (hn : c₂.ensembles_by_name = c.ensembles_by_name)
    (hi : dkeys c₂.ensembles_by_id = dkeys c.ensembles_by_id)
    (h : NInvP c) : NInvP c₂ := by
  intro p hp
  rw [hi]
  exact h p (hn ▸ hp)

theorem CInvP_of_frame (c c₂ : Concept)
    (hn : c₂.ensembles_by_name = c.ensembles_by_name)
    (hi : dkeys c₂.ensembles_by_id = dkeys c.ensembles_by_id)
    (h : CInvP c) : CInvP c₂ := by
  intro k hk
  obtain ⟨q, hq, hqk⟩ := h k (hi ▸ hk)
  exact ⟨q, hn ▸ hq, hqk⟩

/-- C3 amended: in every reachable Concept state the name index is sound
(every name maps to a present identity); completeness of the name index
(every ensemble reachable from some name) additionally holds whenever no
`add_ensemble` call reused an already-present name, but can fail under name
collisions. -/
theorem concept_indices_agree :
    (∀ c, CReach c → namesOk c = true) ∧
    (∀ c, CReachD c → namesOk c = true ∧ idsCovered c = true) := by
  constructor
  · intro c h
    rw [namesOk_iff]
    induction h with
    | init cid name description md g thr => intro p hp; simp [mkConcept] at hp
    | add c e hc ih => exact add_ensemble_NInvP c e ih
    | stim c c₂ sim cues gain hc hst ih =>
      obtain ⟨hn, hi⟩ := stimulate_frame sim c c₂ cues gain hst
      exact NInvP_of_frame c c₂ hn hi ih
    | learn c lr minAct hc ih =>
      obtain ⟨hn, hi⟩ := learn_hebbian_frame c lr minAct
      exact NInvP_of_frame _ _ hn hi ih
    | rel c rt tid descr hc ih => exact ih
    | decay c f hc ih =>
      obtain ⟨hn, hi⟩ := decay_all_frame c f
      exact NInvP_of_frame _ _ hn hi ih
  · intro c h
    rw [namesOk_iff, idsCovered_iff]
    induction h with
    | init cid name description md g thr =>
      constructor
      · intro p hp; simp [mkConcept] at hp
      · intro k hk; simp [mkConcept] at hk
    | add c e hc hfresh ih =>
      exact ⟨add_ensemble_NInvP c e ih.1, add_ensemble_CInvP c e ih.2 hfresh⟩
    | stim c c₂ sim cues gain hc hst ih =>
      obtain ⟨hn, hi⟩ := stimulate_frame sim c c₂ cues gain hst
      exact ⟨NInvP_of_frame c c₂ hn hi ih.1, CInvP_of_frame c c₂ hn hi ih.2⟩
    | learn c lr minAct hc ih =>
      obtain ⟨hn, hi⟩ := learn_hebbian_frame c lr minAct
      exact ⟨NInvP_of_frame _ _ hn hi ih.1, CInvP_of_frame _ _ hn hi ih.2⟩
    | rel c rt tid descr hc ih => exact ih
    | decay c f hc ih =>
      obtain ⟨hn, hi⟩ := decay_all_frame c f
      exact ⟨NInvP_of_frame _ _ hn hi ih.1, CInvP_of_frame _ _ hn hi ih.2⟩

/-- A reachable concept built by two `add_ensemble` calls whose ensemble
names collide ("x" twice, distinct `uuid4` identities 1 and 2). -/
def c3Dup : Concept :=
  ((mkConcept 0 "C" "" [] (1 / 4) (3 / 20)).add_ensemble
      (mkFeatureEnsemble 1 "x" "m" [] "")).add_ensemble
    (mkFeatureEnsemble 2 "x" "m" [] "")

/-- C3 counterexample: after a name collision the ensemble with identity 1
is still present in `ensembles_by_id` but no name reaches it, so the claimed
two-way agreement fails on a reachable state. -/
theorem concept_indices_agree_counterexample :
    CReach c3Dup ∧ idsCovered c3Dup = false :=
  ⟨CReach.add _ _ (CReach.add _ _ (CReach.init 0 "C" "" [] (1 / 4) (3 / 20))),
   by decide⟩

/-- A collision-free reachable concept for the witness. -/
def c3W : Concept :=
  (mkConcept 5 "W" "" [] (1 / 4) (3 / 20)).add_ensemble
    (mkFeatureEnsemble 9 "u" "m" [] "")

/-- Witness for the amended C3 at concrete reachable states. -/
theorem concept_indices_agree_witness :
    namesOk c3Dup = true ∧ (namesOk c3W = true ∧ idsCovered c3W = true) :=
  ⟨concept_indices_agree.1 c3Dup
     (CReach.add _ _ (CReach.add _ _ (CReach.init 0 "C" "" [] (1 / 4) (3 / 20)))),
   concept_indices_agree.2 c3W
     (CReachD.add _ _ (CReachD.init 5 "W" "" [] (1 / 4) (3 / 20)) (by decide))⟩

/-! ## Claim C4 -/

/-- Every Concept field untouched by ensemble registration and link
restoration. -/
def conceptCore (c : Concept) :
    Uuid × String × String × List RelationshipEdge × ℚ × ℚ :=
  (c.concept_id, c.name, c.description, c.relationships,
   c.inhibition_gain, c.activation_threshold)

theorem from_engram_addAll (eds : List EngEnsemble) : ∀ c : Concept,
    (dkeys c.ensembles_by_id ++ eds.map EngEnsemble.ensemble_id).Nodup →
    (eds.foldl (fun c ed => c.add_ensemble (stripEng ed)) c).ensembles_by_id
        = c.ensembles_by_id ++ eds.map (fun ed => (ed.ensemble_id, stripEng ed)) ∧
    conceptCore (eds.foldl (fun c ed => c.add_ensemble (stripEng ed)) c)
        = conceptCore c := by
  induction eds with
  | nil => exact fun c _ => ⟨by simp, rfl⟩
  | cons ed rest ih =>
    intro c h
    have hid : ed.ensemble_id ∉ dkeys c.ensembles_by_id := by
      intro hm
      have hdisj := List.disjoint_of_nodup_append h
      exact hdisj hm (by simp)
    have hstep : (c.add_ensemble (stripEng ed)).ensembles_by_id
        = c.ensembles_by_id ++ [(ed.ensemble_id, stripEng ed)] := by
      have : (stripEng ed).ensemble_id = ed.ensemble_id := rfl
      rw [show (c.add_ensemble (stripEng ed)).ensembles_by_id
          = dset c.ensembles_by_id (stripEng ed).ensemble_id (stripEng ed) from rfl,
        this, dset_eq_append_of_not_mem _ _ _ hid]
    have hnext : (dkeys (c.add_ensemble (stripEng ed)).ensembles_by_id
        ++ rest.map EngEnsemble.ensemble_id).Nodup := by
      rw [hstep]
      simpa [dkeys] using h
    obtain ⟨h₁, h₂⟩ := ih (c.add_ensemble (stripEng ed)) hnext
    refine ⟨?_, ?_⟩
    · rw [List.foldl_cons, h₁, hstep]
      simp
    · rw [List.foldl_cons, h₂]
      rfl

theorem restoreLinks_cons (c : Concept) (ed : EngEnsemble)
    (rest : List EngEnsemble) :
    Concept.restoreLinks c (ed :: rest) =
      match dget? c.ensembles_by_id ed.ensemble_id with
      | none => none
      | some s =>
        Concept.restoreLinks
          { c with
              ensembles_by_id :=
                dset c.ensembles_by_id ed.ensemble_id
                  { s with
                      links := ed.links.foldl (fun acc q => dset acc q.1 q.2) s.links } }
          rest := rfl

theorem restoreLinks_spec (todo : List EngEnsemble) :
    ∀ (pre : List (Uuid × FeatureEnsemble)) (c : Concept),
    c.ensembles_by_id = pre ++ todo.map (fun ed => (ed.ensemble_id, stripEng ed)) →
    (dkeys c.ensembles_by_id).Nodup →
    (∀ ed ∈ todo, (dkeys ed.links).Nodup) →
    ∃ c₂, Concept.restoreLinks c todo = some c₂ ∧
      c₂.ensembles_by_id = pre ++ todo.map (fun ed => (ed.ensemble_id, fullEng ed)) ∧
      conceptCore c₂ = conceptCore c ∧
      c₂.ensembles_by_name = c.ensembles_by_name := by
  induction todo with
  | nil =>
    intro pre c hby _ _
    exact ⟨c, rfl, by simpa using hby, rfl, rfl⟩
  | cons ed rest ih =>
    intro pre c hby hnd hlinks
    have hpre : ed.ensemble_id ∉ dkeys pre := by
      intro hm
      rw [hby] at hnd
      have : dkeys (pre ++ (ed.ensemble_id, stripEng ed)
          :: rest.map (fun ed => (ed.ensemble_id, stripEng ed)))
          = dkeys pre ++ ed.ensemble_id
            :: dkeys (rest.map (fun ed => (ed.ensemble_id, stripEng ed))) := by
        simp [dkeys]
      rw [show pre ++ (ed :: rest).map (fun ed => (ed.ensemble_id, stripEng ed))
          = pre ++ (ed.ensemble_id, stripEng ed)
            :: rest.map (fun ed => (ed.ensemble_id, stripEng ed)) from by simp,
        this] at hnd
      exact (List.disjoint_of_nodup_append hnd) hm (by simp)
    have hfind : dget? c.ensembles_by_id ed.ensemble_id = some (stripEng ed) := by
      rw [hby, show (ed :: rest).map (fun ed => (ed.ensemble_id, stripEng ed))
          = (ed.ensemble_id, stripEng ed)
            :: rest.map (fun ed => (ed.ensemble_id, stripEng ed)) from by simp,
        dget?_append_of_not_mem_left _ _ _ hpre]
      simp [dget?]
    have hfold : ed.links.foldl (fun acc q => dset acc q.1 q.2) (stripEng ed).links
        = ed.links := by
      have : (stripEng ed).links = [] := rfl
      rw [this]
      simpa using foldl_dset_of_nodup ed.links []
        (by simpa using hlinks ed (List.mem_cons_self _ _))
    have hdset : dset c.ensembles_by_id ed.ensemble_id (fullEng ed)
        = (pre ++ [(ed.ensemble_id, fullEng ed)])
          ++ rest.map (fun ed => (ed.ensemble_id, stripEng ed)) := by
      rw [hby, show (ed :: rest).map (fun ed => (ed.ensemble_id, stripEng ed))
          = (ed.ensemble_id, stripEng ed)
            :: rest.map (fun ed => (ed.ensemble_id, stripEng ed)) from by simp,
        dset_append_right _ _ _ _ _ hpre]
      simp
    have hstep : Concept.restoreLinks c (ed :: rest)
        = Concept.restoreLinks
            { c with
                ensembles_by_id :=
                  (pre ++ [(ed.ensemble_id, fullEng ed)])
                    ++ rest.map (fun ed => (ed.ensemble_id, stripEng ed)) }
            rest := by
      rw [restoreLinks_cons, hfind]
      show Concept.restoreLinks
        { c with
            ensembles_by_id :=
              dset c.ensembles_by_id ed.ensemble_id
                { stripEng ed with
                    links := ed.links.foldl (fun acc q => dset acc q.1 q.2)
                      (stripEng ed).links } }
        rest = _
      rw [hfold]
      show Concept.restoreLinks
        { c with
            ensembles_by_id :=
              dset c.ensembles_by_id ed.ensemble_id (fullEng ed) }
        rest = _
      rw [hdset]
    have hnd₂ : (dkeys ((pre ++ [(ed.ensemble_id, fullEng ed)])
        ++ rest.map (fun ed => (ed.ensemble_id, stripEng ed)))).Nodup := by
      have hsame : dkeys ((pre ++ [(ed.ensemble_id, fullEng ed)])
          ++ rest.map (fun ed => (ed.ensemble_id, stripEng ed)))
          = dkeys c.ensembles_by_id := by
        rw [hby]
        simp [dkeys]
      rw [hsame]
      exact hnd
    obtain ⟨c₂, hrec, hby₂, hcore₂, hname₂⟩ := ih
      (pre ++ [(ed.ensemble_id, fullEng ed)])
      { c with
          ensembles_by_id :=
            (pre ++ [(ed.ensemble_id, fullEng ed)])
              ++ rest.map (fun ed => (ed.ensemble_id, stripEng ed)) }
      rfl hnd₂ (fun ed₂ h₂ => hlinks ed₂ (List.mem_cons_of_mem _ h₂))
    refine ⟨c₂, ?_, ?_, ?_, ?_⟩
    · rw [hstep]
      exact hrec
    · rw [hby₂]
      simp
    · exact hcore₂
    · exact hname₂

/-- The record serialized for one identity-map entry. -/
def serRec (p : Uuid × FeatureEnsemble) : EngEnsemble :=
  { ensemble_id := p.2.ensemble_id, name := p.2.name, modality := p.2.modality,
    vector := p.2.vector, links := p.2.links }

theorem from_engram_eq (data : Engram) (c₂ : Concept)
    (h : Concept.restoreLinks
      (data.ensembles.foldl (fun c ed => c.add_ensemble (stripEng ed))
        { mkConcept 0 data.name data.description data.metadata data.inhibition_gain data.activation_threshold with
          concept_id := data.concept_id })
      data.ensembles = some c₂) :
    Concept.from_engram data
      = some { c₂ with
                 relationships :=
                   c₂.relationships
                     ++ data.relationships.map (fun t => ⟨t.1, t.2.1, t.2.2⟩) } := by
  simp only [Concept.from_engram]
  rw [h]

/-- C4: the engram round trip reproduces the concept exactly — same concept
id, per-identity ensembles with the same ids, names, modalities, vectors and
link weights, the same relationship edges, and the same dynamics parameters;
no identity is regenerated on load.  (Serialized records omit description
and runtime activation, which the claim does not cover.) -/
theorem engram_roundtrip (c : Concept)
    (h1 : (dkeys c.ensembles_by_id).Nodup)
    (h2 : ∀ p ∈ c.ensembles_by_id, p.1 = p.2.ensemble_id)
    (h3 : ∀ p ∈ c.ensembles_by_id, (dkeys p.2.links).Nodup) :
    ∃ c₂, Concept.from_engram c.serialize_engram = some c₂ ∧
      c₂.concept_id = c.concept_id ∧
      c₂.name = c.name ∧
      c₂.description = c.description ∧
      c₂.relationships = c.relationships ∧
      c₂.inhibition_gain = c.inhibition_gain ∧
      c₂.activation_threshold = c.activation_threshold ∧
      c₂.ensembles_by_id.map
          (fun p => (p.1, p.2.ensemble_id, p.2.name, p.2.modality, p.2.vector, p.2.links))
        = c.ensembles_by_id.map
          (fun p => (p.1, p.2.ensemble_id, p.2.name, p.2.modality, p.2.vector,
            p.2.links)) := by
  have hids : (c.ensembles_by_id.map serRec).map EngEnsemble.ensemble_id
      = dkeys c.ensembles_by_id := by
    rw [List.map_map]
    show _ = c.ensembles_by_id.map Prod.fst
    apply List.map_congr_left
    intro p hp
    exact (h2 p hp).symm
  have hadd : (dkeys
      ({ mkConcept 0 c.serialize_engram.name c.serialize_engram.description c.serialize_engram.metadata c.serialize_engram.inhibition_gain c.serialize_engram.activation_threshold with
         concept_id := c.serialize_engram.concept_id } : Concept).ensembles_by_id
      ++ (c.ensembles_by_id.map serRec).map EngEnsemble.ensemble_id).Nodup := by
    rw [show dkeys
        ({ mkConcept 0 c.serialize_engram.name c.serialize_engram.description c.serialize_engram.metadata c.serialize_engram.inhibition_gain c.serialize_engram.activation_threshold with
           concept_id := c.serialize_engram.concept_id } : Concept).ensembles_by_id
        = [] from rfl, List.nil_append, hids]
    exact h1
  obtain ⟨hby₁, hcore₁⟩ := from_engram_addAll (c.ensembles_by_id.map serRec)
    { mkConcept 0 c.serialize_engram.name c.serialize_engram.description c.serialize_engram.metadata c.serialize_engram.inhibition_gain c.serialize_engram.activation_threshold with
      concept_id := c.serialize_engram.concept_id } hadd
  have hnd₁ : (dkeys ((c.ensembles_by_id.map serRec).foldl
      (fun (cc : Concept) ed => cc.add_ensemble (stripEng ed))
      { mkConcept 0 c.serialize_engram.name c.serialize_engram.description c.serialize_engram.metadata c.serialize_engram.inhibition_gain c.serialize_engram.activation_threshold with
        concept_id := c.serialize_engram.concept_id }).ensembles_by_id).Nodup := by
    rw [hby₁]
    show (((c.ensembles_by_id.map serRec).map
      (fun ed => (ed.ensemble_id, stripEng ed))).map Prod.fst).Nodup
    rw [List.map_map]
    show ((c.ensembles_by_id.map serRec).map EngEnsemble.ensemble_id).Nodup
    rw [hids]
    exact h1
  have hlinksEds : ∀ ed ∈ c.ensembles_by_id.map serRec, (dkeys ed.links).Nodup := by
    intro ed hed
    obtain ⟨p, hp, hpe⟩ := List.mem_map.mp hed
    rw [← hpe]
    exact h3 p hp
  obtain ⟨c₂, hrec, hby₂, hcore₂, hname₂⟩ := restoreLinks_spec
    (c.ensembles_by_id.map serRec) []
    ((c.ensembles_by_id.map serRec).foldl
      (fun (cc : Concept) ed => cc.add_ensemble (stripEng ed))
      { mkConcept 0 c.serialize_engram.name c.serialize_engram.description c.serialize_engram.metadata c.serialize_engram.inhibition_gain c.serialize_engram.activation_threshold with
        concept_id := c.serialize_engram.concept_id })
    hby₁ hnd₁ hlinksEds
  rw [List.nil_append] at hby₂
  have hfe := from_engram_eq c.serialize_engram c₂ hrec
  simp only [conceptCore, Prod.mk.injEq] at hcore₁ hcore₂
  obtain ⟨hid₁, hnm₁, hds₁, hrel₁, hig₁, hat₁⟩ := hcore₁
  obtain ⟨hid₂, hnm₂, hds₂, hrel₂, hig₂, hat₂⟩ := hcore₂
  refine ⟨_, hfe, ?_, ?_, ?_, ?_, ?_, ?_, ?_⟩
  · show c₂.concept_id = c.concept_id
    rw [hid₂, hid₁]
    rfl
  · show c₂.name = c.name
    rw [hnm₂, hnm₁]
    rfl
  · show c₂.description = c.description
    rw [hds₂, hds₁]
    rfl
  · show c₂.relationships
        ++ c.serialize_engram.relationships.map (fun t => ⟨t.1, t.2.1, t.2.2⟩)
      = c.relationships
    rw [hrel₂, hrel₁]
    show ([] : List RelationshipEdge)
        ++ c.serialize_engram.relationships.map (fun t => ⟨t.1, t.2.1, t.2.2⟩)
      = c.relationships
    rw [List.nil_append,
      show c.serialize_engram.relationships = c.relationships.map
        (fun r => (r.relation_type, r.target_concept_id, r.description)) from rfl,
      List.map_map]
    have hptwise : ∀ r ∈ c.relationships,
        ((fun t : RelTuple => (⟨t.1, t.2.1, t.2.2⟩ : RelationshipEdge))
          ∘ fun r => (r.relation_type, r.target_concept_id, r.description)) r
          = id r := fun r _ => rfl
    rw [List.map_congr_left hptwise, List.map_id]
  · show c₂.inhibition_gain = c.inhibition_gain
    rw [hig₂, hig₁]
    rfl
  · show c₂.activation_threshold = c.activation_threshold
    rw [hat₂, hat₁]
    rfl
  · show c₂.ensembles_by_id.map
        (fun p => (p.1, p.2.ensemble_id, p.2.name, p.2.modality, p.2.vector, p.2.links))
      = _
    rw [hby₂, List.map_map, List.map_map]
    apply List.map_congr_left
    intro p hp
    show (p.2.ensemble_id, p.2.ensemble_id, p.2.name, p.2.modality, p.2.vector,
        p.2.links)
      = (p.1, p.2.ensemble_id, p.2.name, p.2.modality, p.2.vector, p.2.links)
    rw [h2 p hp]

/-- Concrete concept for the C4 witness: one ensemble with a link, one
relationship edge, nonempty metadata. -/
def c4W : Concept :=
  ((mkConcept 42 "R" "d" [("k", "v")] (1 / 4) (3 / 20)).add_ensemble
      { mkFeatureEnsemble 7 "e" "m" [1, 0] "" with links := [(8, 2)] }).add_relationship
    "IS_A" 9 "x"

/-- Witness for C4 at the concrete concept. -/
theorem engram_roundtrip_witness :
    ∃ c₂, Concept.from_engram c4W.serialize_engram = some c₂ ∧
      c₂.concept_id = c4W.concept_id ∧
      c₂.name = c4W.name ∧
      c₂.description = c4W.description ∧
      c₂.relationships = c4W.relationships ∧
      c₂.inhibition_gain = c4W.inhibition_gain ∧
      c₂.activation_threshold = c4W.activation_threshold ∧
      c₂.ensembles_by_id.map
          (fun p => (p.1, p.2.ensemble_id, p.2.name, p.2.modality, p.2.vector, p.2.links))
        = c4W.ensembles_by_id.map
          (fun p => (p.1, p.2.ensemble_id, p.2.name, p.2.modality, p.2.vector,
            p.2.links)) :=
  engram_roundtrip c4W (by decide) (by decide) (by decide)

end MindModel
